import Mathlib

/-!
# PetClinic exporter: rewrite and re-parse pipeline

Shallow embedding of `src/PetClinic-Exporter/main.go`
(`transformMetrics`, `metricRegex`, `parseLabels`, `customCollector.Collect`).

Go strings are modelled as `List Char` (valid UTF-8 text); byte lengths are
taken with `Char.utf8Size`.  Every separator the program looks for
(`'\n'`, `'\r'`, `' '`, `','`, `'='`, `'"'`, `'{'`, `'}'`, `'#'`) is ASCII, so
cutting at a character is cutting at the same byte.

A text that is not valid UTF-8 is outside the model; `ValidString`, the check
`MustNewConstMetric` runs on each label value, is modelled on the encoding and
every text of the model passes it (`ValidString_eq_true`).

A run-time panic is a result of its own: `none` for a function that returns a
value, `Outcome.panicked` for `Collect`, which also records what was sent on
the channel before.  The functions of the Go standard library and of the
Prometheus client that the program calls are modelled by what they return on
the arguments the program can pass.
-/

set_option exponentiation.threshold 4000
set_option maxRecDepth 100000

namespace PetClinic

/-! # Definitions -/

/-! ## Go standard library pieces used by the program -/

/-- Go `strings.Split(s, sep)` for a one-character separator: the pieces
between the occurrences of `sep`, at least one piece. -/
def Split (sep : Char) : List Char → List (List Char)
  | [] => [[]]
  | c :: cs =>
    if c = sep then [] :: Split sep cs
    else
      match Split sep cs with
      | [] => [[c]]
      | p :: ps => (c :: p) :: ps

/-- Go `strings.Join(parts, sep)` for a one-character separator. -/
def Join (sep : Char) : List (List Char) → List Char
  | [] => []
  | [p] => p
  | p :: q :: ps => p ++ sep :: Join sep (q :: ps)

/-- Go `strings.HasPrefix(s, p)`. -/
def HasPrefix (s p : List Char) : Bool := p.isPrefixOf s

/-- Go `strings.Index(s, sep)` for a one-character separator: the position of
its first occurrence, `-1` when there is none. -/
def Index (sep : Char) : List Char → Int
  | [] => -1
  | c :: cs =>
    if c = sep then 0
    else if Index sep cs < 0 then -1 else Index sep cs + 1

/-- The `dropCR` of `bufio.ScanLines`: one trailing carriage return is removed. -/
def dropCR (data : List Char) : List Char :=
  if data.getLast? = some '\r' then data.dropLast else data

/-- Length in bytes of the UTF-8 encoding. -/
def byteLen (s : List Char) : Nat := (s.map Char.utf8Size).sum

/-- The constant `bufio.MaxScanTokenSize`: the scanner's buffer never grows
beyond this many bytes. -/
def MaxScanTokenSize : Nat := 64 * 1024

/-- The tokens of a `bufio.Scanner` with the default `ScanLines` split function,
given the pieces of the text between its `'\n'` characters.  A piece that does
not fit in the buffer (`MaxScanTokenSize` bytes without a newline in them) makes
`Scan` fail with `ErrTooLong`: it returns false there and for good.  An empty
final piece (the text ended with `'\n'`, or was empty) is no token. -/
def scanTokens : List (List Char) → List (List Char)
  | [] => []
  | [last] =>
    if last = [] then []
    else if MaxScanTokenSize ≤ byteLen last then []
    else [dropCR last]
  | piece :: rest =>
    if MaxScanTokenSize ≤ byteLen piece then []
    else dropCR piece :: scanTokens rest

/-- The lines `for scanner.Scan() { line := scanner.Text() ... }` iterates over,
for `scanner := bufio.NewScanner(strings.NewReader(text))`. -/
def scanLines (text : List Char) : List (List Char) :=
  scanTokens (Split '\n' text)

/-! ## `transformMetrics` -/

/-- The namespace prefix literal `"petclinic_"`. -/
def namespacePrefix : List Char := "petclinic_".toList

/-- The body of the loop of `transformMetrics`: what one scanned line appends to
`result`.  `none` is the run-time panic of an out-of-range `lineParts[2]`. -/
def transformLine (line : List Char) : Option (List Char) :=
  if HasPrefix line "# HELP ".toList || HasPrefix line "# TYPE ".toList then
    let lineParts := Split ' ' line
    match lineParts.get? 2 with
    | none => none
    | some third =>
      some (Join ' ' (lineParts.set 2 (namespacePrefix ++ third)) ++ ['\n'])
  else if line.length > 0 then
    let spaceIndex := Index ' ' line
    if spaceIndex > 0 then
      some (namespacePrefix ++ line.take spaceIndex.toNat ++ line.drop spaceIndex.toNat ++ ['\n'])
    else
      some (line ++ ['\n'])
  else
    some []

/-- The loop of `transformMetrics` over the scanned lines, appending to `result`. -/
def transformLoop : List (List Char) → List Char → Option (List Char)
  | [], result => some result
  | line :: rest, result =>
    match transformLine line with
    | none => none
    | some out => transformLoop rest (result ++ out)

/-- Go `transformMetrics(metrics string) string`; `none` is a panic. -/
def transformMetrics (metrics : List Char) : Option (List Char) :=
  transformLoop (scanLines metrics) []

/-! ## `metricRegex` -/

/-- The character class `[a-zA-Z_:]`. -/
def isNameStart (c : Char) : Bool :=
  ('a' ≤ c && c ≤ 'z') || ('A' ≤ c && c ≤ 'Z') || c = '_' || c = ':'

/-- The character class `[a-zA-Z0-9_:]`. -/
def isNameChar (c : Char) : Bool :=
  ('a' ≤ c && c ≤ 'z') || ('A' ≤ c && c ≤ 'Z') || ('0' ≤ c && c ≤ '9') || c = '_' || c = ':'

/-- The character class `[0-9\.eE+-]`. -/
def isValueChar (c : Char) : Bool :=
  ('0' ≤ c && c ≤ '9') || c = '.' || c = 'e' || c = 'E' || c = '+' || c = '-'

/-- The call `metricRegex.FindStringSubmatch(line)` for the pattern
`^(?P<name>[a-zA-Z_:][a-zA-Z0-9_:]*)\{(?P<labels>[^\}]*)\} (?P<value>[0-9\.eE+-]+)$`:
the three groups on a match, `none` (Go `nil`) otherwise.  The pattern is
anchored at both ends and each group is followed by a character outside its
own class, so a match cuts the line in one way only (`FindStringSubmatch_iff`). -/
def FindStringSubmatch (line : List Char) : Option (List Char × List Char × List Char) :=
  let name := line.takeWhile isNameChar
  match name.head?, line.dropWhile isNameChar with
  | some c, b :: rest =>
    if isNameStart c && b = '{' then
      let labels := rest.takeWhile (fun x => x ≠ '}')
      match rest.dropWhile (fun x => x ≠ '}') with
      | cl :: sp :: value =>
        if cl = '}' && sp = ' ' && !value.isEmpty && value.all isValueChar then
          some (name, labels, value)
        else none
      | _ => none
    else none
  | _, _ => none

/-! ## `parseLabels` -/

/-- Go `strings.SplitN(s, sep, 2)` for a one-character separator: the text
before and after the first `sep`, or `s` alone when it has no `sep`. -/
def SplitN2 (sep : Char) (s : List Char) : List (List Char) :=
  if sep ∈ s then [s.takeWhile (fun x => x ≠ sep), (s.dropWhile (fun x => x ≠ sep)).tail]
  else [s]

/-- Go `strings.Trim(s, cutset)` for a one-character cutset: all leading and
all trailing occurrences of the character are removed. -/
def Trim (cut : Char) (s : List Char) : List Char :=
  ((s.dropWhile (fun x => x = cut)).reverse.dropWhile (fun x => x = cut)).reverse

/-- Go `type labelSet struct { names []string; values []string }`. -/
structure labelSet where
  names : List (List Char)
  values : List (List Char)
deriving DecidableEq

/-- The body of the loop of `parseLabels` for one `pair`. -/
def parsePair (labels : labelSet) (pair : List Char) : labelSet :=
  match SplitN2 '=' pair with
  | [k, v] => { names := labels.names ++ [k], values := labels.values ++ [Trim '"' v] }
  | _ => labels

/-- Go `parseLabels(labelsStr string) labelSet`. -/
def parseLabels (labelsStr : List Char) : labelSet :=
  (Split ',' labelsStr).foldl parsePair { names := [], values := [] }

/-! ## `strconv.ParseFloat(s, 64)` -/

/-- The character class `[0-9]`. -/
def isDigit (c : Char) : Bool := '0' ≤ c && c ≤ '9'

/-- The number a run of decimal digits denotes. -/
def digitsToNat (ds : List Char) : Nat :=
  ds.foldl (fun a c => a * 10 + (c.toNat - 48)) 0

/-- The exponent accumulation of `readFloat`:
`if e < 10000 { e = e*10 + int(s[i]) - '0' }`. -/
def expDigitsToNat (ds : List Char) : Nat :=
  ds.foldl (fun e c => if e < 10000 then e * 10 + (c.toNat - 48) else e) 0

/-- An optional sign in front of `s`: whether it is `-`, and the rest. -/
def readSign : List Char → Bool × List Char
  | c :: t => if c = '+' then (false, t) else if c = '-' then (true, t) else (false, c :: t)
  | [] => (false, [])

/-- The decimal syntax `strconv` accepts, `[+-]? digits* (. digits*)? ([eE] [+-]? digits+)?`
with at least one digit before the exponent, consumed to the end of `s`.
The result is the sign, a mantissa `m` and a power of ten `e`: the text denotes
`± m * 10 ^ e`.  `none` is `ErrSyntax`.  The special forms (`inf`, `nan`, `0x...`,
digit-separating underscores) need a character outside `[0-9.eE+-]` and
`Collect` only passes text over that alphabet. -/
def readFloat (s : List Char) : Option (Bool × Nat × Int) :=
  let (neg, s1) := readSign s
  let intPart := s1.takeWhile isDigit
  let s2 := s1.dropWhile isDigit
  let (fracPart, s3) :=
    match s2 with
    | c :: t => if c = '.' then (t.takeWhile isDigit, t.dropWhile isDigit) else ([], c :: t)
    | [] => ([], [])
  if intPart.isEmpty && fracPart.isEmpty then none
  else
    let mant := digitsToNat (intPart ++ fracPart)
    match s3 with
    | [] => some (neg, mant, - (fracPart.length : Int))
    | c :: s4 =>
      if c = 'e' || c = 'E' then
        let (eneg, s5) := readSign s4
        let expPart := s5.takeWhile isDigit
        if expPart.isEmpty || !(s5.dropWhile isDigit).isEmpty then none
        else
          let e : Int := expDigitsToNat expPart
          some (neg, mant, (if eneg then - e else e) - (fracPart.length : Int))
      else none

/-- Position of the highest set bit of `n` (`0` for `n < 2`); `fuel` bounds
the number of halvings. -/
def bitPos : Nat → Nat → Nat
  | 0, _ => 0
  | fuel + 1, n => if n < 2 then 0 else bitPos fuel (n / 2) + 1

/-- Whether `2 ^ k ≤ num / den`. -/
def geTwoPow (num den : Nat) (k : Int) : Bool :=
  if 0 ≤ k then den * 2 ^ k.toNat ≤ num else den ≤ num * 2 ^ (-k).toNat

/-- The float64 (IEEE 754 binary64) nearest to `num / den`, ties to the even
mantissa, as a rational; the exponent is not bounded above, so a result of
`2 ^ 1024` or more stands for overflow.  `strconv` rounds correctly. -/
def roundFloat64 (num den : Nat) : Rat :=
  if num = 0 then 0
  else
    let k : Int := (bitPos num num : Int) - (bitPos den den : Int)
    let e : Int := if geTwoPow num den k then k else k - 1
    let u : Int := max e (-1022) - 52
    let n := if 0 ≤ u then num else num * 2 ^ (-u).toNat
    let d := if 0 ≤ u then den * 2 ^ u.toNat else den
    let q := n / d
    let r := n % d
    let m := if d < 2 * r || (2 * r = d && q % 2 = 1) then q + 1 else q
    if 0 ≤ u then ((m * 2 ^ u.toNat : Nat) : Rat) else mkRat m (2 ^ (-u).toNat)

/-- Go `strconv.ErrSyntax` and `strconv.ErrRange`. -/
inductive NumError where
  | ErrSyntax
  | ErrRange
deriving DecidableEq

deriving instance DecidableEq for Except

/-- Go `strconv.ParseFloat(s, 64)` on text over `[0-9.eE+-]`: the nearest
float64, or `ErrRange` when that is infinite (the text is more than half a unit
in the last place beyond the largest float64), or `ErrSyntax`.  A finite
float64 is given as the rational it stands for; the sign of a zero is not kept. -/
def ParseFloat (s : List Char) : Except NumError Rat :=
  match readFloat s with
  | none => .error .ErrSyntax
  | some (neg, mant, e) =>
    let f := if 0 ≤ e then roundFloat64 (mant * 10 ^ e.toNat) 1
             else roundFloat64 mant (10 ^ (-e).toNat)
    if ((2 ^ 1024 : Nat) : Rat) ≤ f then .error .ErrRange
    else .ok (if neg then - f else f)

/-! ## `utf8.ValidString` -/

/-- The bytes of the UTF-8 encoding of a character. -/
def utf8Bytes (c : Char) : List Nat :=
  let v := c.toNat
  if v < 0x80 then [v]
  else if v < 0x800 then [0xC0 + v / 64, 0x80 + v % 64]
  else if v < 0x10000 then [0xE0 + v / 4096, 0x80 + v / 64 % 64, 0x80 + v % 64]
  else [0xF0 + v / 262144, 0x80 + v / 4096 % 64, 0x80 + v / 64 % 64, 0x80 + v % 64]

/-- The table `first` of `unicode/utf8` for a leading byte of `0x80` or more:
the size of the sequence and the range accepted for its second byte; `none`
for an illegal leading byte. -/
def acceptRange (b : Nat) : Option (Nat × Nat × Nat) :=
  if 0xC2 ≤ b ∧ b ≤ 0xDF then some (2, 0x80, 0xBF)
  else if b = 0xE0 then some (3, 0xA0, 0xBF)
  else if b = 0xED then some (3, 0x80, 0x9F)
  else if 0xE1 ≤ b ∧ b ≤ 0xEF then some (3, 0x80, 0xBF)
  else if b = 0xF0 then some (4, 0x90, 0xBF)
  else if 0xF1 ≤ b ∧ b ≤ 0xF3 then some (4, 0x80, 0xBF)
  else if b = 0xF4 then some (4, 0x80, 0x8F)
  else none

/-- A continuation byte, `0x80` to `0xBF`. -/
def isCont (b : Nat) : Bool := 0x80 ≤ b && b ≤ 0xBF

/-- Go `utf8.ValidString` on the bytes of a string: an ASCII byte stands alone;
another leading byte gives the size of its sequence and the range of the second
byte, the third and fourth bytes are continuation bytes, and a sequence cut
short by the end of the string is invalid. -/
def validBytes : List Nat → Bool
  | [] => true
  | b0 :: rest =>
    if b0 < 0x80 then validBytes rest
    else
      match acceptRange b0 with
      | none => false
      | some (size, lo, hi) =>
        match rest with
        | [] => false
        | b1 :: r1 =>
          lo ≤ b1 && b1 ≤ hi &&
            (if size = 2 then validBytes r1
             else
               match r1 with
               | [] => false
               | b2 :: r2 =>
                 isCont b2 &&
                   (if size = 3 then validBytes r2
                    else
                      match r2 with
                      | [] => false
                      | b3 :: r3 => isCont b3 && validBytes r3))

/-- Go `utf8.ValidString(s)`: the check run on the UTF-8 encoding of the text. -/
def ValidString (s : List Char) : Bool := validBytes (s.flatMap utf8Bytes)

/-! ## `prometheus.NewDesc` and `prometheus.MustNewConstMetric` -/

/-- The metric name check of `NewDesc`, `^[a-zA-Z_:][a-zA-Z0-9_:]*$`. -/
def IsValidMetricName (n : List Char) : Bool :=
  match n with
  | [] => false
  | c :: cs => isNameStart c && cs.all isNameChar

/-- The label name syntax `^[a-zA-Z_][a-zA-Z0-9_]*$` of the classic name
validation.  (Library versions that validate names as UTF-8 accept every
non-empty name, these included; the results below use the check only to know
that the names at hand pass it, or rely on two names being equal.) -/
def IsValidLabelName (l : List Char) : Bool :=
  match l with
  | [] => false
  | c :: cs => (isNameStart c && c ≠ ':') && cs.all (fun x => isNameChar x && x ≠ ':')

/-- The `checkLabelName` of `NewDesc`: a valid label name that does not begin
with the reserved prefix `__`. -/
def checkLabelName (l : List Char) : Bool :=
  IsValidLabelName l && !HasPrefix l "__".toList

/-- The fields of `prometheus.Desc` that `NewDesc` fills from its arguments;
`err` records that the descriptor is invalid. -/
structure Desc where
  fqName : List Char
  help : List Char
  variableLabels : List (List Char)
  err : Bool
deriving DecidableEq

/-- The call `prometheus.NewDesc(fqName, help, variableLabels, nil)`: the
descriptor carries an error when the metric name is invalid, when a label name
fails `checkLabelName`, or when two label names are equal (the set of label
names is smaller than their list). -/
def NewDesc (fqName help : List Char) (variableLabels : List (List Char)) : Desc :=
  { fqName := fqName
    help := help
    variableLabels := variableLabels
    err := !IsValidMetricName fqName
      || !variableLabels.all checkLabelName
      || variableLabels.dedup.length ≠ variableLabels.length }

/-- Go `prometheus.ValueType`. -/
inductive ValueType where
  | CounterValue
  | GaugeValue
  | UntypedValue
deriving DecidableEq

/-- The constant metric `NewConstMetric` builds: one sample. -/
structure Metric where
  desc : Desc
  valType : ValueType
  val : Rat
  labelValues : List (List Char)
deriving DecidableEq

/-- The call `prometheus.MustNewConstMetric(desc, valueType, value, labelValues...)`:
`none` is its panic, raised when the descriptor carries an error, when the
number of label values differs from the number of label names, or when a label
value is not valid UTF-8. -/
def MustNewConstMetric (desc : Desc) (valueType : ValueType) (value : Rat)
    (labelValues : List (List Char)) : Option Metric :=
  if desc.err then none
  else if labelValues.length ≠ desc.variableLabels.length then none
  else if !labelValues.all ValidString then none
  else some { desc := desc, valType := valueType, val := value, labelValues := labelValues }

/-! ## `customCollector.Collect` -/

/-- How a call of `Collect` ends, with the metrics sent on `ch` until then. -/
inductive Outcome where
  | returned (sent : List Metric)
  | panicked (sent : List Metric)
deriving DecidableEq

/-- The metrics sent on the channel. -/
def Outcome.sent : Outcome → List Metric
  | .returned sent => sent
  | .panicked sent => sent

/-- The loop of `Collect` over the scanned lines of the transformed text; `ch`
holds the metrics sent so far. -/
def collectLoop : List (List Char) → List Metric → Outcome
  | [], ch => .returned ch
  | line :: rest, ch =>
    if !HasPrefix line "#".toList then
      match FindStringSubmatch line with
      | some (metricName, labelsStr, valueStr) =>
        let labels := parseLabels labelsStr
        match ParseFloat valueStr with
        | .ok value =>
          match MustNewConstMetric (NewDesc metricName [] labels.names)
              ValueType.GaugeValue value labels.values with
          | some m => collectLoop rest (ch ++ [m])
          | none => .panicked ch
        | .error _ => collectLoop rest ch
      | none => collectLoop rest ch
    else collectLoop rest ch

/-- Go `(c *customCollector) Collect(ch)`, given what `fetchMetrics()` returned:
`.error` for `err != nil` (logged, nothing sent), `.ok metrics` otherwise. -/
def Collect (fetched : Except String (List Char)) : Outcome :=
  match fetched with
  | .error _ => .returned []
  | .ok metrics =>
    match transformMetrics metrics with
    | none => .panicked []
    | some transformedMetrics => collectLoop (scanLines transformedMetrics) []

/-- The gauge sample `name{names=values} value` as `Collect` sends it. -/
def gauge (name : List Char) (labels : labelSet) (value : Rat) : Metric :=
  { desc := { fqName := name, help := [], variableLabels := labels.names, err := false }
    valType := ValueType.GaugeValue
    val := value
    labelValues := labels.values }

/-! ## Notions used to state the claims -/

/-- The text before the first `=` of a segment. -/
def keyOf (seg : List Char) : List Char := seg.takeWhile (fun x => x ≠ '=')

/-- The text after the first `=` of a segment. -/
def afterEq (seg : List Char) : List Char := (seg.dropWhile (fun x => x ≠ '=')).tail

/-- How a scanned line `line` and the line `r` written for it are related. -/
inductive Rewritten (line r : List Char) : Prop where
  | help (rest : List Char) (hl : line = "# HELP ".toList ++ rest)
      (hr : r = "# HELP ".toList ++ namespacePrefix ++ rest)
  | type (rest : List Char) (hl : line = "# TYPE ".toList ++ rest)
      (hr : r = "# TYPE ".toList ++ namespacePrefix ++ rest)
  | prefixed (hne : line ≠ []) (hr : r = namespacePrefix ++ line)
  | unprefixed (hne : line ≠ []) (hsp : ' ' ∉ line ∨ line.head? = some ' ') (hr : r = line)

/-- The text made of the lines `outs`, each ended by a newline. -/
def unlines (outs : List (List Char)) : List Char :=
  (outs.map (fun o => o ++ ['\n'])).flatten

/-- A brace-delimited label block followed by a space and the start of a value:
`{`, later `}`, a space and a character of the value class. -/
def hasLabelBlock (line : List Char) : Prop :=
  ∃ a b v c, line = a ++ '{' :: (b ++ '}' :: ' ' :: v :: c) ∧ isValueChar v = true

/-- The lines of a text: the pieces between its newlines, without the empty
piece after a final newline, each without one trailing carriage return. -/
def inputLines (text : List Char) : List (List Char) :=
  ((if (Split '\n' text).getLast? = some [] then (Split '\n' text).dropLast
    else Split '\n' text)).map dropCR

/-! # Lemmas -/

/-! ## Lemmas on the string functions -/

theorem Split_ne_nil (sep : Char) (s : List Char) : Split sep s ≠ [] := by
  cases s with
  | nil => simp [Split]
  | cons c cs =>
    unfold Split
    split
    · simp
    · split <;> simp

theorem Split_cons_sep (sep : Char) (cs : List Char) :
    Split sep (sep :: cs) = [] :: Split sep cs := by
  simp [Split]

theorem Split_cons_of_ne {sep c : Char} (h : c ≠ sep) (cs p : List Char) (ps : List (List Char))
    (hs : Split sep cs = p :: ps) : Split sep (c :: cs) = (c :: p) :: ps := by
  rw [Split, if_neg h, hs]

theorem Split_exists_cons (sep : Char) (s : List Char) :
    ∃ p ps, Split sep s = p :: ps := by
  cases h : Split sep s with
  | nil => exact absurd h (Split_ne_nil sep s)
  | cons p ps => exact ⟨p, ps, rfl⟩

theorem Join_cons_cons (sep : Char) (p q : List Char) (ps : List (List Char)) :
    Join sep (p :: q :: ps) = p ++ sep :: Join sep (q :: ps) := rfl

theorem Join_append_head (sep : Char) (x p : List Char) (ps : List (List Char)) :
    Join sep ((x ++ p) :: ps) = x ++ Join sep (p :: ps) := by
  cases ps with
  | nil => simp [Join]
  | cons q qs => simp [Join]

theorem Join_Split (sep : Char) (s : List Char) : Join sep (Split sep s) = s := by
  induction s with
  | nil => simp [Split, Join]
  | cons c cs ih =>
    obtain ⟨p, ps, hs⟩ := Split_exists_cons sep cs
    by_cases h : c = sep
    · subst h
      rw [Split_cons_sep, hs, Join_cons_cons, ← hs, ih]
      simp
    · rw [Split_cons_of_ne h cs p ps hs]
      have h2 : Join sep ((c :: p) :: ps) = c :: Join sep (p :: ps) :=
        Join_append_head sep [c] p ps
      rw [h2, ← hs, ih]

theorem Index_of_not_mem {sep : Char} {s : List Char} (h : sep ∉ s) : Index sep s = -1 := by
  induction s with
  | nil => rfl
  | cons c cs ih =>
    simp only [List.mem_cons, not_or] at h
    have hc : ¬ c = sep := fun e => h.1 e.symm
    rw [Index, if_neg hc, ih h.2]
    simp

theorem Index_nonneg_of_mem {sep : Char} {s : List Char} (h : sep ∈ s) : 0 ≤ Index sep s := by
  induction s with
  | nil => simp at h
  | cons c cs ih =>
    rw [Index]
    by_cases hc : c = sep
    · simp [hc]
    · rw [if_neg hc]
      have hm : sep ∈ cs := by
        rcases List.mem_cons.1 h with e | e
        · exact absurd e.symm hc
        · exact e
      have := ih hm
      rw [if_neg (by omega)]
      omega

theorem Index_pos {sep c : Char} {cs : List Char} (hc : c ≠ sep) (h : sep ∈ cs) :
    0 < Index sep (c :: cs) := by
  have := Index_nonneg_of_mem h
  rw [Index, if_neg hc, if_neg (by omega)]
  omega

theorem Index_cons_self (sep : Char) (cs : List Char) : Index sep (sep :: cs) = 0 := by
  simp [Index]

theorem helpHeader_eq : "# HELP ".toList = ['#', ' ', 'H', 'E', 'L', 'P', ' '] := rfl

theorem typeHeader_eq : "# TYPE ".toList = ['#', ' ', 'T', 'Y', 'P', 'E', ' '] := rfl

theorem HasPrefix_append (p rest : List Char) : HasPrefix (p ++ rest) p = true := by
  simp [HasPrefix]

theorem space_mem_of_header {line : List Char}
    (h : (HasPrefix line "# HELP ".toList || HasPrefix line "# TYPE ".toList) = true) :
    ' ' ∈ line := by
  rw [helpHeader_eq, typeHeader_eq] at h
  simp only [HasPrefix, Bool.or_eq_true, List.isPrefixOf_iff_prefix] at h
  rcases h with ⟨t, rfl⟩ | ⟨t, rfl⟩ <;> simp

theorem transformLine_header (hdr rest : List Char)
    (hh : (HasPrefix (hdr ++ rest) "# HELP ".toList || HasPrefix (hdr ++ rest) "# TYPE ".toList) = true)
    (a b : List Char) (hs : ∀ r, Split ' ' (hdr ++ r) = a :: b :: Split ' ' r)
    (hj : ∀ r, a ++ ' ' :: (b ++ ' ' :: r) = hdr ++ r) :
    transformLine (hdr ++ rest) = some (hdr ++ namespacePrefix ++ rest ++ ['\n']) := by
  obtain ⟨p, ps, hp⟩ := Split_exists_cons ' ' rest
  have hrest : Join ' ' (p :: ps) = rest := by rw [← hp, Join_Split]
  rw [transformLine, if_pos hh]
  simp only [hs, hp, List.get?, List.set]
  rw [Join_cons_cons, Join_cons_cons, Join_append_head, hrest, hj]
  simp

theorem transformLine_isSome (line : List Char) : (transformLine line).isSome = true := by
  unfold transformLine
  split
  · rename_i hh
    rw [helpHeader_eq, typeHeader_eq] at hh
    simp only [HasPrefix, Bool.or_eq_true, List.isPrefixOf_iff_prefix] at hh
    obtain ⟨p, ps, hp⟩ : ∃ p ps, Split ' ' (line.drop 7) = p :: ps := Split_exists_cons _ _
    have h3 : (Split ' ' line)[2]? = some p := by
      rcases hh with ⟨t, rfl⟩ | ⟨t, rfl⟩ <;>
        · simp only [List.cons_append, List.nil_append, List.drop_succ_cons, List.drop_zero] at hp
          simp [Split, hp]
    simp [h3]
  · split
    · dsimp only
      split <;> simp
    · simp

theorem transformLoop_isSome (lines : List (List Char)) (result : List Char) :
    (transformLoop lines result).isSome = true := by
  induction lines generalizing result with
  | nil => simp [transformLoop]
  | cons l ls ih =>
    obtain ⟨out, ho⟩ := Option.isSome_iff_exists.1 (transformLine_isSome l)
    simp [transformLoop, ho, ih]

theorem transformLine_of_not_header {line : List Char}
    (hh : (HasPrefix line "# HELP ".toList || HasPrefix line "# TYPE ".toList) = false)
    (hne : line ≠ []) :
    transformLine line =
      if Index ' ' line > 0 then
        some (namespacePrefix ++ line.take (Index ' ' line).toNat
          ++ line.drop (Index ' ' line).toNat ++ ['\n'])
      else some (line ++ ['\n']) := by
  have hl : line.length > 0 := List.length_pos.2 hne
  rw [transformLine, hh]
  simp [hl]

/-! ## `parseLabels` -/

theorem parsePair_of_mem {seg : List Char} (h : '=' ∈ seg) (labels : labelSet) :
    parsePair labels seg =
      { names := labels.names ++ [keyOf seg], values := labels.values ++ [Trim '"' (afterEq seg)] } := by
  simp [parsePair, SplitN2, h, keyOf, afterEq]

theorem parsePair_of_not_mem {seg : List Char} (h : '=' ∉ seg) (labels : labelSet) :
    parsePair labels seg = labels := by
  simp [parsePair, SplitN2, h]

theorem foldl_parsePair (segs : List (List Char)) (labels : labelSet) :
    segs.foldl parsePair labels =
      { names := labels.names ++ (segs.filter (fun seg => decide ('=' ∈ seg))).map keyOf
        values := labels.values
          ++ (segs.filter (fun seg => decide ('=' ∈ seg))).map (fun seg => Trim '"' (afterEq seg)) } := by
  induction segs generalizing labels with
  | nil => simp
  | cons seg rest ih =>
    rw [List.foldl_cons, ih]
    by_cases h : '=' ∈ seg
    · simp [parsePair_of_mem h, h]
    · simp [parsePair_of_not_mem h, h]

theorem parseLabels_eq (labelsStr : List Char) :
    parseLabels labelsStr =
      { names := ((Split ',' labelsStr).filter (fun seg => decide ('=' ∈ seg))).map keyOf
        values := ((Split ',' labelsStr).filter (fun seg => decide ('=' ∈ seg))).map
          (fun seg => Trim '"' (afterEq seg)) } := by
  rw [parseLabels, foldl_parsePair]
  simp

theorem parseLabels_length (labelsStr : List Char) :
    (parseLabels labelsStr).values.length = (parseLabels labelsStr).names.length := by
  rw [parseLabels_eq]
  simp

theorem takeWhile_eq_replicate (q : Char) (l : List Char) :
    l.takeWhile (fun x => x = q) = List.replicate (l.takeWhile (fun x => x = q)).length q := by
  apply List.eq_replicate_iff.2
  refine ⟨rfl, fun b hb => ?_⟩
  simpa using List.mem_takeWhile_imp hb

theorem Trim_spec (q : Char) (v : List Char) :
    ∃ i j, v = List.replicate i q ++ Trim q v ++ List.replicate j q
      ∧ (Trim q v).head? ≠ some q ∧ (Trim q v).getLast? ≠ some q := by
  let w := v.dropWhile (fun x => x = q)
  have hv : v = v.takeWhile (fun x => x = q) ++ w := (List.takeWhile_append_dropWhile _ v).symm
  have hw : w = Trim q v ++ (w.reverse.takeWhile (fun x => x = q)).reverse := by
    have := congrArg List.reverse (List.takeWhile_append_dropWhile (fun x => decide (x = q)) w.reverse)
    rw [List.reverse_append, List.reverse_reverse] at this
    exact this.symm
  have hlast : (Trim q v).getLast? ≠ some q := by
    rw [Trim, List.getLast?_reverse]
    intro h
    have := List.head?_dropWhile_not (fun x => decide (x = q)) w.reverse
    rw [h] at this
    simp at this
  have hhead : (Trim q v).head? ≠ some q := by
    intro h
    have h1 : w.head? = some q := by
      rw [hw, List.head?_append, h]
      rfl
    have := List.head?_dropWhile_not (fun x => decide (x = q)) v
    rw [show List.dropWhile (fun x => decide (x = q)) v = w from rfl, h1] at this
    simp at this
  refine ⟨(v.takeWhile (fun x => x = q)).length,
    (w.reverse.takeWhile (fun x => x = q)).length, ?_, hhead, hlast⟩
  have h2 : List.replicate (w.reverse.takeWhile (fun x => x = q)).length q
      = (w.reverse.takeWhile (fun x => x = q)).reverse := by
    rw [← List.reverse_replicate, ← takeWhile_eq_replicate q w.reverse]
  rw [h2, ← takeWhile_eq_replicate q v, List.append_assoc, ← hw]
  exact hv

/-! ## `metricRegex` -/

theorem isNameChar_of_isNameStart {c : Char} (h : isNameStart c = true) : isNameChar c = true := by
  simp only [isNameStart, Bool.or_eq_true, Bool.and_eq_true, decide_eq_true_eq] at h
  simp only [isNameChar, Bool.or_eq_true, Bool.and_eq_true, decide_eq_true_eq]
  tauto

theorem all_isNameChar_of_valid {n : List Char} (h : IsValidMetricName n = true) :
    ∀ a ∈ n, isNameChar a = true := by
  cases n with
  | nil => simp
  | cons c cs =>
    simp only [IsValidMetricName, Bool.and_eq_true, List.all_eq_true] at h
    intro a ha
    rcases List.mem_cons.1 ha with rfl | h2
    · exact isNameChar_of_isNameStart h.1
    · exact h.2 a h2

theorem FindStringSubmatch_of_form {n l v : List Char} (hn : IsValidMetricName n = true)
    (hl : '}' ∉ l) (hv : v ≠ []) (hvc : ∀ c ∈ v, isValueChar c = true) :
    FindStringSubmatch (n ++ '{' :: (l ++ '}' :: ' ' :: v)) = some (n, l, v) := by
  have hall := all_isNameChar_of_valid hn
  have hl2 : ∀ a ∈ l, (fun x => decide (x ≠ '}')) a = true := by
    intro a ha
    simp only [decide_eq_true_eq]
    rintro rfl
    exact hl ha
  have h1 : List.takeWhile isNameChar (n ++ '{' :: (l ++ '}' :: ' ' :: v)) = n := by
    rw [List.takeWhile_append_of_pos hall, List.takeWhile_cons_of_neg (by decide)]
    simp
  have h2 : List.dropWhile isNameChar (n ++ '{' :: (l ++ '}' :: ' ' :: v))
      = '{' :: (l ++ '}' :: ' ' :: v) := by
    rw [List.dropWhile_append_of_pos hall, List.dropWhile_cons_of_neg (by decide)]
  have h3 : List.takeWhile (fun x => decide (x ≠ '}')) (l ++ '}' :: ' ' :: v) = l := by
    rw [List.takeWhile_append_of_pos hl2, List.takeWhile_cons_of_neg (by simp)]
    simp
  have h4 : List.dropWhile (fun x => decide (x ≠ '}')) (l ++ '}' :: ' ' :: v) = '}' :: ' ' :: v := by
    rw [List.dropWhile_append_of_pos hl2, List.dropWhile_cons_of_neg (by simp)]
  cases n with
  | nil => simp [IsValidMetricName] at hn
  | cons c cs =>
    have hc : isNameStart c = true := by
      simp only [IsValidMetricName, Bool.and_eq_true] at hn
      exact hn.1
    have hve : v.isEmpty = false := by
      cases v with
      | nil => exact absurd rfl hv
      | cons a as => rfl
    have hva : v.all isValueChar = true := List.all_eq_true.2 hvc
    unfold FindStringSubmatch
    simp only [h1, h2, h3, h4, List.head?_cons, hc, hve, hva]
    simp

theorem FindStringSubmatch_some {line n l v : List Char}
    (h : FindStringSubmatch line = some (n, l, v)) :
    line = n ++ '{' :: (l ++ '}' :: ' ' :: v) ∧ n = line.takeWhile isNameChar
      ∧ IsValidMetricName n = true ∧ '}' ∉ l ∧ v ≠ [] ∧ ∀ c ∈ v, isValueChar c = true := by
  unfold FindStringSubmatch at h
  have e1 := List.takeWhile_append_dropWhile isNameChar line
  dsimp only at h
  split at h
  · rename_i c b rest hhead hdrop
    have e2 := List.takeWhile_append_dropWhile (fun x => decide (x ≠ '}')) rest
    split at h
    · rename_i hcond
      simp only [Bool.and_eq_true, decide_eq_true_eq] at hcond
      split at h
      · rename_i cl sp value hdrop2
        split at h
        · rename_i hcond2
          simp only [Bool.and_eq_true, decide_eq_true_eq, Bool.not_eq_true',
            List.all_eq_true] at hcond2
          simp only [Option.some.injEq, Prod.mk.injEq] at h
          obtain ⟨hn, hl, hvv⟩ := h
          obtain ⟨⟨⟨hcl, hsp⟩, hne⟩, hvc⟩ := hcond2
          subst hvv
          refine ⟨?_, hn.symm, ?_, ?_, ?_, hvc⟩
          · have e3 : rest = l ++ '}' :: ' ' :: value := by
              rw [← e2, hl, hdrop2, hcl, hsp]
            rw [← e1, hn, hdrop, hcond.2, e3]
          · rw [← hn]
            cases hname : List.takeWhile isNameChar line with
            | nil => rw [hname] at hhead; simp at hhead
            | cons c2 cs =>
              rw [hname] at hhead
              simp only [List.head?_cons, Option.some.injEq] at hhead
              subst hhead
              simp only [IsValidMetricName, Bool.and_eq_true, List.all_eq_true]
              refine ⟨hcond.1, fun a ha => ?_⟩
              have : a ∈ List.takeWhile isNameChar line := by rw [hname]; exact List.mem_cons_of_mem _ ha
              exact List.mem_takeWhile_imp this
          · intro hm
            rw [← hl] at hm
            have := List.mem_takeWhile_imp hm
            simp at this
          · intro hnil
            rw [hnil] at hne
            simp at hne
        · simp at h
      · simp at h
    · simp at h
  · simp at h

theorem FindStringSubmatch_iff (line n l v : List Char) :
    FindStringSubmatch line = some (n, l, v)
      ↔ line = n ++ '{' :: (l ++ '}' :: ' ' :: v) ∧ IsValidMetricName n = true ∧ '}' ∉ l
        ∧ v ≠ [] ∧ ∀ c ∈ v, isValueChar c = true := by
  constructor
  · intro h
    obtain ⟨h1, -, h2, h3, h4, h5⟩ := FindStringSubmatch_some h
    exact ⟨h1, h2, h3, h4, h5⟩
  · rintro ⟨rfl, h2, h3, h4, h5⟩
    exact FindStringSubmatch_of_form h2 h3 h4 h5

/-! ## The line scanner -/

theorem Split_of_not_mem {sep : Char} {s : List Char} (h : sep ∉ s) : Split sep s = [s] := by
  induction s with
  | nil => rfl
  | cons c cs ih =>
    simp only [List.mem_cons, not_or] at h
    have hc : c ≠ sep := fun e => h.1 e.symm
    exact Split_cons_of_ne hc cs cs [] (ih h.2)

theorem Split_append_sep {sep : Char} {a : List Char} (h : sep ∉ a) (b : List Char) :
    Split sep (a ++ sep :: b) = a :: Split sep b := by
  induction a with
  | nil => simp [Split]
  | cons c cs ih =>
    simp only [List.mem_cons, not_or] at h
    have hc : c ≠ sep := fun e => h.1 e.symm
    exact Split_cons_of_ne hc _ _ _ (ih h.2)

theorem not_mem_of_mem_Split {sep : Char} {s p : List Char} (h : p ∈ Split sep s) : sep ∉ p := by
  induction s generalizing p with
  | nil =>
    simp only [Split, List.mem_singleton] at h
    subst h
    simp
  | cons c cs ih =>
    obtain ⟨q, qs, hq⟩ := Split_exists_cons sep cs
    by_cases hc : c = sep
    · subst hc
      rw [Split_cons_sep] at h
      rcases List.mem_cons.1 h with rfl | h2
      · simp
      · exact ih h2
    · rw [Split_cons_of_ne hc cs q qs hq] at h
      rcases List.mem_cons.1 h with rfl | h2
      · have hq2 : sep ∉ q := ih (by rw [hq]; exact List.mem_cons_self _ _)
        simp only [List.mem_cons, not_or]
        exact ⟨fun e => hc e.symm, hq2⟩
      · exact ih (by rw [hq]; exact List.mem_cons_of_mem _ h2)

theorem prefix_of_Split_head {sep : Char} {s p : List Char} {ps : List (List Char)}
    (h : Split sep s = p :: ps) : ∃ y, s = p ++ y := by
  have hj := Join_Split sep s
  rw [h] at hj
  cases ps with
  | nil => exact ⟨[], by rw [← hj]; simp [Join]⟩
  | cons q qs => exact ⟨sep :: Join sep (q :: qs), by rw [← hj]; rfl⟩

theorem infix_of_mem_Split {sep : Char} {s p : List Char} (h : p ∈ Split sep s) :
    ∃ x y, s = x ++ p ++ y := by
  induction s generalizing p with
  | nil =>
    simp only [Split, List.mem_singleton] at h
    subst h
    exact ⟨[], [], rfl⟩
  | cons c cs ih =>
    obtain ⟨q, qs, hq⟩ := Split_exists_cons sep cs
    by_cases hc : c = sep
    · subst hc
      rw [Split_cons_sep] at h
      rcases List.mem_cons.1 h with rfl | h2
      · exact ⟨[], c :: cs, rfl⟩
      · obtain ⟨x, y, hxy⟩ := ih h2
        exact ⟨c :: x, y, by rw [hxy]; simp⟩
    · have hs := Split_cons_of_ne hc cs q qs hq
      rw [hs] at h
      rcases List.mem_cons.1 h with rfl | h2
      · obtain ⟨y, hy⟩ := prefix_of_Split_head hs
        exact ⟨[], y, by rw [hy]; simp⟩
      · obtain ⟨x, y, hxy⟩ := ih (show p ∈ Split sep cs by rw [hq]; exact List.mem_cons_of_mem _ h2)
        exact ⟨c :: x, y, by rw [hxy]; simp⟩

theorem dropCR_append {a b : List Char} (hb : b ≠ []) : dropCR (a ++ b) = a ++ dropCR b := by
  have h1 : (a ++ b).getLast? = b.getLast? := List.getLast?_append_of_ne_nil a hb
  unfold dropCR
  rw [h1]
  split
  · exact List.dropLast_append_of_ne_nil a hb
  · rfl

theorem dropCR_isPrefix (data : List Char) : dropCR data <+: data := by
  unfold dropCR
  split
  · exact List.dropLast_prefix data
  · exact List.prefix_refl data

theorem dropCR_of_getLast {data : List Char} (h : data.getLast? ≠ some '\r') : dropCR data = data := by
  rw [dropCR, if_neg h]

theorem mem_scanTokens {pieces : List (List Char)} {l : List Char} (h : l ∈ scanTokens pieces) :
    ∃ p ∈ pieces, l = dropCR p := by
  induction pieces with
  | nil => simp [scanTokens] at h
  | cons p ps ih =>
    cases ps with
    | nil =>
      simp only [scanTokens] at h
      split at h
      · simp at h
      · split at h
        · simp at h
        · simp only [List.mem_singleton] at h
          exact ⟨p, List.mem_singleton.2 rfl, h⟩
    | cons q qs =>
      rw [scanTokens] at h
      · split at h
        · simp at h
        · rcases List.mem_cons.1 h with rfl | h2
          · exact ⟨p, List.mem_cons_self _ _, rfl⟩
          · obtain ⟨r, hr, e⟩ := ih h2
            exact ⟨r, List.mem_cons_of_mem _ hr, e⟩
      · simp

theorem mem_scanTokens_append_nil {ps : List (List Char)} {l : List Char}
    (h : l ∈ scanTokens (ps ++ [[]])) : ∃ p ∈ ps, l = dropCR p := by
  induction ps with
  | nil => simp [scanTokens] at h
  | cons p qs ih =>
    have e : ∃ q r, qs ++ [[]] = q :: r := by
      cases qs with
      | nil => exact ⟨[], [], rfl⟩
      | cons q r => exact ⟨q, r ++ [[]], List.cons_append q r [[]]⟩
    obtain ⟨q, r, hq⟩ := e
    rw [List.cons_append, hq, scanTokens] at h
    · split at h
      · simp at h
      · rcases List.mem_cons.1 h with rfl | h2
        · exact ⟨p, List.mem_cons_self _ _, rfl⟩
        · rw [← hq] at h2
          obtain ⟨x, hx, e2⟩ := ih h2
          exact ⟨x, List.mem_cons_of_mem _ hx, e2⟩
    · simp

theorem not_mem_newline_of_mem_scanLines {text l : List Char} (h : l ∈ scanLines text) :
    '\n' ∉ l := by
  obtain ⟨p, hp, rfl⟩ := mem_scanTokens h
  intro hm
  exact not_mem_of_mem_Split hp ((dropCR_isPrefix p).subset hm)

/-! ## The shape of the transformed text -/

theorem transformLine_help (rest : List Char) :
    transformLine ("# HELP ".toList ++ rest)
      = some ("# HELP ".toList ++ namespacePrefix ++ rest ++ ['\n']) := by
  apply transformLine_header _ _ (by simp [HasPrefix]) "#".toList "HELP".toList
  · intro r
    obtain ⟨p, ps, hp⟩ := Split_exists_cons ' ' r
    simp [helpHeader_eq, Split, hp]
  · intro r
    simp [helpHeader_eq]

theorem transformLine_type (rest : List Char) :
    transformLine ("# TYPE ".toList ++ rest)
      = some ("# TYPE ".toList ++ namespacePrefix ++ rest ++ ['\n']) := by
  apply transformLine_header _ _ (by simp [HasPrefix]) "#".toList "TYPE".toList
  · intro r
    obtain ⟨p, ps, hp⟩ := Split_exists_cons ' ' r
    simp [typeHeader_eq, Split, hp]
  · intro r
    simp [typeHeader_eq]

theorem transformLine_prefixed {line : List Char}
    (hh : (HasPrefix line "# HELP ".toList || HasPrefix line "# TYPE ".toList) = false)
    (hsp : ' ' ∈ line) (hc : line.head? ≠ some ' ') :
    transformLine line = some (namespacePrefix ++ line ++ ['\n']) := by
  have hne : line ≠ [] := List.ne_nil_of_mem hsp
  rw [transformLine_of_not_header hh hne]
  cases line with
  | nil => exact absurd rfl hne
  | cons c cs =>
    have hc2 : c ≠ ' ' := by simpa using hc
    have hm : ' ' ∈ cs := by
      rcases List.mem_cons.1 hsp with e | e
      · exact absurd e.symm hc2
      · exact e
    rw [if_pos (Index_pos hc2 hm)]
    simp only [List.append_assoc, List.take_append_drop]

theorem transformLine_unprefixed {line : List Char} (hne : line ≠ [])
    (hh : (HasPrefix line "# HELP ".toList || HasPrefix line "# TYPE ".toList) = false)
    (hsp : ' ' ∉ line ∨ line.head? = some ' ') :
    transformLine line = some (line ++ ['\n']) := by
  rw [transformLine_of_not_header hh hne]
  rcases hsp with h | h
  · rw [Index_of_not_mem h]
    simp
  · cases line with
    | nil => exact absurd rfl hne
    | cons c cs =>
      have hc2 : c = ' ' := by simpa using h
      subst hc2
      rw [Index_cons_self]
      simp

theorem transformLine_cases (line : List Char) :
    (line = [] ∧ transformLine line = some [])
      ∨ ∃ r, transformLine line = some (r ++ ['\n']) ∧ Rewritten line r := by
  cases hh : (HasPrefix line "# HELP ".toList || HasPrefix line "# TYPE ".toList) with
  | true =>
    right
    simp only [HasPrefix, Bool.or_eq_true, List.isPrefixOf_iff_prefix] at hh
    rcases hh with ⟨t, rfl⟩ | ⟨t, rfl⟩
    · exact ⟨_, transformLine_help t, .help t rfl rfl⟩
    · exact ⟨_, transformLine_type t, .type t rfl rfl⟩
  | false =>
    by_cases hne : line = []
    · left
      subst hne
      exact ⟨rfl, by decide⟩
    · right
      by_cases hsp : ' ' ∈ line
      · by_cases hc : line.head? = some ' '
        · exact ⟨line, transformLine_unprefixed hne hh (Or.inr hc), .unprefixed hne (Or.inr hc) rfl⟩
        · exact ⟨_, transformLine_prefixed hh hsp hc, .prefixed hne rfl⟩
      · exact ⟨line, transformLine_unprefixed hne hh (Or.inl hsp), .unprefixed hne (Or.inl hsp) rfl⟩

theorem transformLoop_spec (lines : List (List Char)) (result : List Char) :
    ∃ outs, transformLoop lines result = some (result ++ unlines outs)
      ∧ List.Forall₂ (fun line r => transformLine line = some (r ++ ['\n']) ∧ Rewritten line r)
          (lines.filter (fun l => decide (l ≠ []))) outs := by
  induction lines generalizing result with
  | nil => exact ⟨[], by simp [transformLoop, unlines], by simp⟩
  | cons l ls ih =>
    rcases transformLine_cases l with ⟨rfl, h0⟩ | ⟨r, hr, hrel⟩
    · obtain ⟨outs, h1, h2⟩ := ih (result ++ [])
      refine ⟨outs, ?_, ?_⟩
      · rw [transformLoop, h0]
        simpa using h1
      · simpa using h2
    · obtain ⟨outs, h1, h2⟩ := ih (result ++ (r ++ ['\n']))
      have hne : l ≠ [] := by
        cases hrel with
        | help rest hl _ => rw [hl]; simp [helpHeader_eq]
        | type rest hl _ => rw [hl]; simp [typeHeader_eq]
        | prefixed hne _ => exact hne
        | unprefixed hne _ _ => exact hne
      refine ⟨r :: outs, ?_, ?_⟩
      · rw [transformLoop, hr]
        simp only [h1, unlines, List.map_cons, List.flatten_cons, List.append_assoc]
      · rw [List.filter_cons_of_pos (by simpa using hne)]
        exact List.Forall₂.cons ⟨hr, hrel⟩ h2

theorem transformMetrics_spec (metrics : List Char) :
    ∃ outs, transformMetrics metrics = some (unlines outs)
      ∧ List.Forall₂ (fun line r => transformLine line = some (r ++ ['\n']) ∧ Rewritten line r)
          ((scanLines metrics).filter (fun l => decide (l ≠ []))) outs := by
  obtain ⟨outs, h1, h2⟩ := transformLoop_spec (scanLines metrics) []
  exact ⟨outs, by simpa [transformMetrics] using h1, h2⟩

theorem Split_unlines {outs : List (List Char)} (h : ∀ o ∈ outs, '\n' ∉ o) :
    Split '\n' (unlines outs) = outs ++ [[]] := by
  induction outs with
  | nil => rfl
  | cons o os ih =>
    have h1 : unlines (o :: os) = o ++ '\n' :: unlines os := by
      simp [unlines]
    rw [h1, Split_append_sep (h o (List.mem_cons_self _ _)),
      ih (fun x hx => h x (List.mem_cons_of_mem _ hx))]
    rfl

/-! ## The lines `Collect` scans -/

theorem Rewritten.not_mem_newline {line r : List Char} (h : Rewritten line r) (hl : '\n' ∉ line) :
    '\n' ∉ r := by
  cases h with
  | help rest hl2 hr =>
    subst hl2 hr
    simp only [List.mem_append, not_or] at hl ⊢
    exact ⟨⟨hl.1, by decide⟩, hl.2⟩
  | type rest hl2 hr =>
    subst hl2 hr
    simp only [List.mem_append, not_or] at hl ⊢
    exact ⟨⟨hl.1, by decide⟩, hl.2⟩
  | prefixed hne hr =>
    subst hr
    simp only [List.mem_append, not_or]
    exact ⟨by decide, hl⟩
  | unprefixed hne hsp hr =>
    subst hr
    exact hl

theorem exists_of_forall₂_right {α β : Type} {R : α → β → Prop} {l₁ : List α} {l₂ : List β}
    (h : List.Forall₂ R l₁ l₂) {b : β} (hb : b ∈ l₂) : ∃ a ∈ l₁, R a b := by
  induction h with
  | nil => simp at hb
  | cons hab _ ih =>
    rcases List.mem_cons.1 hb with rfl | h2
    · exact ⟨_, List.mem_cons_self _ _, hab⟩
    · obtain ⟨a, ha, hr⟩ := ih h2
      exact ⟨a, List.mem_cons_of_mem _ ha, hr⟩

/-- Every line `Collect` scans is empty or is, up to one trailing carriage
return, the line written for a non-empty line of the upstream text. -/
theorem scanned_transformed {metrics out line : List Char}
    (ht : transformMetrics metrics = some out) (hl : line ∈ scanLines out) :
    line = [] ∨ ∃ t r, t ∈ scanLines metrics ∧ Rewritten t r ∧ line = dropCR r := by
  obtain ⟨outs, h1, h2⟩ := transformMetrics_spec metrics
  rw [ht] at h1
  simp only [Option.some.injEq] at h1
  subst h1
  have hnl : ∀ o ∈ outs, '\n' ∉ o := by
    intro o ho
    obtain ⟨t, ht2, -, hrel⟩ := exists_of_forall₂_right h2 ho
    exact hrel.not_mem_newline (not_mem_newline_of_mem_scanLines (List.mem_filter.1 ht2).1)
  rw [scanLines, Split_unlines hnl] at hl
  obtain ⟨p, hp, rfl⟩ := mem_scanTokens hl
  rcases List.mem_append.1 hp with hp2 | hp2
  · obtain ⟨t, ht2, -, hrel⟩ := exists_of_forall₂_right h2 hp2
    exact Or.inr ⟨t, p, (List.mem_filter.1 ht2).1, hrel, rfl⟩
  · simp only [List.mem_singleton] at hp2
    subst hp2
    exact Or.inl rfl

theorem FindStringSubmatch_nil : FindStringSubmatch [] = none := rfl

theorem no_match_of_no_space {m : List Char} (h : ' ' ∉ m) : FindStringSubmatch m = none := by
  cases hm : FindStringSubmatch m with
  | none => rfl
  | some t =>
    obtain ⟨n, l, v⟩ := t
    obtain ⟨e, -⟩ := FindStringSubmatch_some hm
    exact absurd (by rw [e]; simp) h

theorem no_match_of_not_nameStart {m : List Char} {c : Char} (h : m.head? = some c)
    (hc : isNameStart c = false) : FindStringSubmatch m = none := by
  cases hm : FindStringSubmatch m with
  | none => rfl
  | some t =>
    obtain ⟨n, l, v⟩ := t
    obtain ⟨e, -, hv, -⟩ := FindStringSubmatch_some hm
    cases n with
    | nil => simp [IsValidMetricName] at hv
    | cons a as =>
      rw [e] at h
      simp only [List.cons_append, List.head?_cons, Option.some.injEq] at h
      subst h
      simp only [IsValidMetricName, Bool.and_eq_true] at hv
      rw [hc] at hv
      simp at hv

theorem head?_dropCR {t : List Char} (h : dropCR t ≠ []) : (dropCR t).head? = t.head? := by
  obtain ⟨y, hy⟩ := dropCR_isPrefix t
  cases hd : dropCR t with
  | nil => exact absurd hd h
  | cons a as =>
    rw [← hy, hd]
    rfl

theorem no_match_unprefixed {t : List Char} (hsp : ' ' ∉ t ∨ t.head? = some ' ') :
    FindStringSubmatch (dropCR t) = none := by
  rcases hsp with h | h
  · exact no_match_of_no_space (fun hm => h ((dropCR_isPrefix t).subset hm))
  · by_cases hd : dropCR t = []
    · rw [hd]
      rfl
    · exact no_match_of_not_nameStart (by rw [head?_dropCR hd]; exact h) (by decide)

theorem hasPrefix_hash_header (hdr : List Char) {rest : List Char} (h : hdr.head? = some '#')
    (hne : 1 < hdr.length) : HasPrefix (dropCR (hdr ++ rest)) "#".toList = true := by
  cases hdr with
  | nil => simp at h
  | cons a as =>
    simp only [List.head?_cons, Option.some.injEq] at h
    subst h
    have : as ++ rest ≠ [] := by
      cases as with
      | nil => simp at hne
      | cons b bs => simp
    have e : dropCR ('#' :: as ++ rest) = ['#'] ++ dropCR (as ++ rest) :=
      dropCR_append (a := ['#']) this
    rw [e]
    exact HasPrefix_append ['#'] _

theorem prefix_name_of_match {t n l v : List Char} (hne : t ≠ [])
    (h : FindStringSubmatch (dropCR (namespacePrefix ++ t)) = some (n, l, v)) :
    namespacePrefix <+: n := by
  obtain ⟨-, hn, -⟩ := FindStringSubmatch_some h
  rw [dropCR_append hne, List.takeWhile_append_of_pos (by decide)] at hn
  exact ⟨_, hn.symm⟩

/-! ## `utf8.ValidString` on the model's strings -/

theorem char_range (c : Char) : c.toNat < 0xD800 ∨ (0xDFFF < c.toNat ∧ c.toNat < 0x110000) := by
  have := c.valid
  simp only [UInt32.isValidChar, Nat.isValidChar] at this
  exact this

theorem validBytes_utf8Bytes (c : Char) (rest : List Nat) :
    validBytes (utf8Bytes c ++ rest) = validBytes rest := by
  have hr := char_range c
  unfold utf8Bytes
  generalize c.toNat = v at hr
  dsimp only
  by_cases h1 : v < 0x80
  · rw [if_pos h1, List.singleton_append, validBytes, if_pos h1]
  · rw [if_neg h1]
    by_cases h2 : v < 0x800
    · have a1 : ¬ (0xC0 + v / 64 < 0x80) := by omega
      have a2 : acceptRange (0xC0 + v / 64) = some (2, 0x80, 0xBF) := by
        have : 0xC2 ≤ 0xC0 + v / 64 ∧ 0xC0 + v / 64 ≤ 0xDF := by omega
        simp [acceptRange, this]
      have a3 : 0x80 ≤ 0x80 + v % 64 ∧ 0x80 + v % 64 ≤ 0xBF := by omega
      rw [if_pos h2, List.cons_append, List.cons_append, List.nil_append, validBytes, if_neg a1, a2]
      simp [a3]
    · rw [if_neg h2]
      have c3 : isCont (0x80 + v % 64) = true := by
        simp only [isCont, Bool.and_eq_true, decide_eq_true_eq]
        omega
      have c2 : isCont (0x80 + v / 64 % 64) = true := by
        simp only [isCont, Bool.and_eq_true, decide_eq_true_eq]
        omega
      by_cases h3 : v < 0x10000
      · have a1 : ¬ (0xE0 + v / 4096 < 0x80) := by omega
        rw [if_pos h3]
        simp only [List.cons_append, List.nil_append]
        rw [validBytes, if_neg a1]
        by_cases e0 : v / 4096 = 0
        · have a2 : acceptRange (0xE0 + v / 4096) = some (3, 0xA0, 0xBF) := by
            simp [acceptRange, e0]
          have a3 : 0xA0 ≤ 0x80 + v / 64 % 64 ∧ 0x80 + v / 64 % 64 ≤ 0xBF := by omega
          rw [a2]
          simp [a3, c3]
        · by_cases ed : v / 4096 = 13
          · have a2 : acceptRange (0xE0 + v / 4096) = some (3, 0x80, 0x9F) := by
              simp [acceptRange, ed]
            have a3 : 0x80 ≤ 0x80 + v / 64 % 64 ∧ 0x80 + v / 64 % 64 ≤ 0x9F := by omega
            rw [a2]
            simp [a3, c3]
          · have a2 : acceptRange (0xE0 + v / 4096) = some (3, 0x80, 0xBF) := by
              have k1 : ¬ (0xC2 ≤ 0xE0 + v / 4096 ∧ 0xE0 + v / 4096 ≤ 0xDF) := by omega
              have k2 : ¬ (0xE0 + v / 4096 = 0xE0) := by omega
              have k3 : ¬ (0xE0 + v / 4096 = 0xED) := by omega
              have k4 : 0xE1 ≤ 0xE0 + v / 4096 ∧ 0xE0 + v / 4096 ≤ 0xEF := by omega
              simp only [acceptRange, k1, k2, k3, k4, if_false, if_true, and_self]
            have a3 : 0x80 ≤ 0x80 + v / 64 % 64 ∧ 0x80 + v / 64 % 64 ≤ 0xBF := by omega
            rw [a2]
            simp [a3, c3]
      · have a1 : ¬ (0xF0 + v / 262144 < 0x80) := by omega
        have c1 : isCont (0x80 + v / 4096 % 64) = true := by
          simp only [isCont, Bool.and_eq_true, decide_eq_true_eq]
          omega
        rw [if_neg h3]
        simp only [List.cons_append, List.nil_append]
        rw [validBytes, if_neg a1]
        by_cases f0 : v / 262144 = 0
        · have a2 : acceptRange (0xF0 + v / 262144) = some (4, 0x90, 0xBF) := by
            simp [acceptRange, f0]
          have a3 : 0x90 ≤ 0x80 + v / 4096 % 64 ∧ 0x80 + v / 4096 % 64 ≤ 0xBF := by omega
          rw [a2]
          simp [a3, c2, c3]
        · by_cases f4 : v / 262144 = 4
          · have a2 : acceptRange (0xF0 + v / 262144) = some (4, 0x80, 0x8F) := by
              simp [acceptRange, f4]
            have a3 : 0x80 ≤ 0x80 + v / 4096 % 64 ∧ 0x80 + v / 4096 % 64 ≤ 0x8F := by omega
            rw [a2]
            simp [a3, c2, c3]
          · have a2 : acceptRange (0xF0 + v / 262144) = some (4, 0x80, 0xBF) := by
              have k1 : ¬ (0xC2 ≤ 0xF0 + v / 262144 ∧ 0xF0 + v / 262144 ≤ 0xDF) := by omega
              have k2 : ¬ (0xF0 + v / 262144 = 0xE0) := by omega
              have k3 : ¬ (0xF0 + v / 262144 = 0xED) := by omega
              have k4 : ¬ (0xE1 ≤ 0xF0 + v / 262144 ∧ 0xF0 + v / 262144 ≤ 0xEF) := by omega
              have k5 : ¬ (0xF0 + v / 262144 = 0xF0) := by omega
              have k6 : 0xF1 ≤ 0xF0 + v / 262144 ∧ 0xF0 + v / 262144 ≤ 0xF3 := by omega
              simp only [acceptRange, k1, k2, k3, k4, k5, k6, if_false, if_true, and_self]
            have a3 : 0x80 ≤ 0x80 + v / 4096 % 64 ∧ 0x80 + v / 4096 % 64 ≤ 0xBF := by omega
            rw [a2]
            simp [a3, c2, c3]

theorem ValidString_eq_true (s : List Char) : ValidString s = true := by
  unfold ValidString
  induction s with
  | nil => rfl
  | cons c cs ih =>
    rw [List.flatMap_cons, validBytes_utf8Bytes]
    exact ih

theorem length_utf8Bytes (c : Char) : (utf8Bytes c).length = c.utf8Size := by
  unfold utf8Bytes Char.utf8Size
  have e : c.val.toNat = c.toNat := rfl
  have h1 : (c.val ≤ UInt32.ofNatCore 127 (by decide)) ↔ c.toNat ≤ 127 := by rw [← e]; exact Iff.rfl
  have h2 : (c.val ≤ UInt32.ofNatCore 2047 (by decide)) ↔ c.toNat ≤ 2047 := by rw [← e]; exact Iff.rfl
  have h3 : (c.val ≤ UInt32.ofNatCore 65535 (by decide)) ↔ c.toNat ≤ 65535 := by rw [← e]; exact Iff.rfl
  simp only [h1, h2, h3]
  generalize c.toNat = v
  by_cases k1 : v < 128
  · have : v ≤ 127 := by omega
    simp [k1, this]
  · have n1 : ¬ v ≤ 127 := by omega
    by_cases k2 : v < 2048
    · have : v ≤ 2047 := by omega
      simp [k1, k2, n1, this]
    · have n2 : ¬ v ≤ 2047 := by omega
      by_cases k3 : v < 65536
      · have : v ≤ 65535 := by omega
        simp [k1, k2, k3, n1, n2, this]
      · have n3 : ¬ v ≤ 65535 := by omega
        simp [k1, k2, k3, n1, n2, n3]

theorem byteLen_eq_length (s : List Char) : byteLen s = (s.flatMap utf8Bytes).length := by
  induction s with
  | nil => rfl
  | cons c cs ih =>
    rw [List.flatMap_cons, List.length_append, length_utf8Bytes, ← ih]
    simp [byteLen]

/-- The edges of `utf8.ValidString`: a stray byte `0xff`, an overlong encoding,
an encoded surrogate and a sequence cut short are invalid. -/
theorem validBytes_examples :
    validBytes [0xff] = false ∧ validBytes [0xC0, 0x80] = false
      ∧ validBytes [0xED, 0xA0, 0x80] = false ∧ validBytes [0xE2, 0x82] = false
      ∧ validBytes [0x61, 0xC3, 0xA9, 0xE2, 0x82, 0xAC, 0xF0, 0x9D, 0x84, 0x9E] = true := by
  decide

/-! ## `Collect` -/

theorem MustNewConstMetric_some {desc : Desc} {vt : ValueType} {val : Rat}
    {lv : List (List Char)} {m : Metric} (h : MustNewConstMetric desc vt val lv = some m) :
    m = { desc := desc, valType := vt, val := val, labelValues := lv } := by
  unfold MustNewConstMetric at h
  split at h
  · simp at h
  · split at h
    · simp at h
    · split at h
      · simp at h
      · simpa using h.symm

theorem MustNewConstMetric_ok (desc : Desc) (vt : ValueType) (val : Rat)
    {lv : List (List Char)} (he : desc.err = false) (hl : lv.length = desc.variableLabels.length)
    (hu : ∀ v ∈ lv, ValidString v = true) :
    MustNewConstMetric desc vt val lv
      = some { desc := desc, valType := vt, val := val, labelValues := lv } := by
  have hu2 : lv.all ValidString = true := List.all_eq_true.2 hu
  simp [MustNewConstMetric, he, hl, hu2]

theorem collectLoop_sent_name (Q : List Char → Prop) (lines : List (List Char)) (ch : List Metric)
    (hch : ∀ m ∈ ch, Q m.desc.fqName)
    (hl : ∀ line ∈ lines, HasPrefix line "#".toList = false →
      ∀ n l v, FindStringSubmatch line = some (n, l, v) → Q n) :
    ∀ m ∈ (collectLoop lines ch).sent, Q m.desc.fqName := by
  induction lines generalizing ch with
  | nil => simpa [collectLoop, Outcome.sent] using hch
  | cons line rest ih =>
    have hrest : ∀ line ∈ rest, HasPrefix line "#".toList = false →
        ∀ n l v, FindStringSubmatch line = some (n, l, v) → Q n :=
      fun x hx => hl x (List.mem_cons_of_mem _ hx)
    rw [collectLoop]
    split
    · rename_i hp
      split
      · rename_i n l v hm
        dsimp only
        split
        · split
          · rename_i value _ m hmk
            apply ih _ _ hrest
            intro x hx
            rcases List.mem_append.1 hx with h1 | h1
            · exact hch x h1
            · simp only [List.mem_singleton] at h1
              subst h1
              rw [MustNewConstMetric_some hmk]
              exact hl line (List.mem_cons_self _ _) (by simpa using hp) n l v hm
          · simpa [Outcome.sent] using hch
        · exact ih _ hch hrest
      · exact ih _ hch hrest
    · exact ih _ hch hrest

theorem collectLoop_no_match (lines : List (List Char)) (ch : List Metric)
    (hl : ∀ line ∈ lines, HasPrefix line "#".toList = true ∨ FindStringSubmatch line = none) :
    collectLoop lines ch = .returned ch := by
  induction lines with
  | nil => rfl
  | cons line rest ih =>
    have hrest := ih (fun x hx => hl x (List.mem_cons_of_mem _ hx))
    rw [collectLoop]
    rcases hl line (List.mem_cons_self _ _) with h | h
    · rw [h]
      exact hrest
    · rw [h]
      split <;> exact hrest

theorem hasLabelBlock_of_match {m n l v : List Char} (h : FindStringSubmatch m = some (n, l, v)) :
    hasLabelBlock m := by
  obtain ⟨e, -, -, -, hv, hvc⟩ := FindStringSubmatch_some h
  cases v with
  | nil => exact absurd rfl hv
  | cons a as => exact ⟨n, l, a, as, e, hvc a (List.mem_cons_self _ _)⟩

theorem hasLabelBlock_of_infix {p : List Char} (x y : List Char) (h : hasLabelBlock p) :
    hasLabelBlock (x ++ p ++ y) := by
  obtain ⟨a, b, v, c, e, hv⟩ := h
  exact ⟨x ++ a, b, v, c ++ y, by rw [e]; simp, hv⟩

theorem hasLabelBlock_mono {m r : List Char} (hp : m <+: r) (h : hasLabelBlock m) :
    hasLabelBlock r := by
  obtain ⟨y, rfl⟩ := hp
  simpa using hasLabelBlock_of_infix [] y h

theorem hasLabelBlock_strip {t : List Char} (h : hasLabelBlock (namespacePrefix ++ t)) :
    hasLabelBlock t := by
  obtain ⟨a, b, v, c, e, hv⟩ := h
  rcases List.append_eq_append_iff.1 e with ⟨a', ha, ht⟩ | ⟨c', hp, hc⟩
  · exact ⟨a', b, v, c, ht, hv⟩
  · cases c' with
    | nil =>
      simp only [List.nil_append] at hc
      exact ⟨[], b, v, c, by rw [← hc]; rfl, hv⟩
    | cons d ds =>
      simp only [List.cons_append, List.cons.injEq] at hc
      have : '{' ∈ namespacePrefix := by
        rw [hp, hc.1]
        simp
      exact absurd this (by decide)

theorem not_hasLabelBlock_of_mem_scanLines {text t : List Char} (h : ¬ hasLabelBlock text)
    (ht : t ∈ scanLines text) : ¬ hasLabelBlock t := by
  obtain ⟨p, hp, rfl⟩ := mem_scanTokens ht
  obtain ⟨x, y, e⟩ := infix_of_mem_Split hp
  intro hb
  apply h
  rw [e]
  exact hasLabelBlock_of_infix x y (hasLabelBlock_mono (dropCR_isPrefix p) hb)

theorem no_match_of_no_block {m : List Char} (h : ¬ hasLabelBlock m) :
    FindStringSubmatch m = none := by
  cases hm : FindStringSubmatch m with
  | none => rfl
  | some t =>
    obtain ⟨n, l, v⟩ := t
    exact absurd (hasLabelBlock_of_match hm) h

/-! ## The lines of the transformed text -/

theorem scanTokens_of_small (pieces : List (List Char))
    (h : ∀ p ∈ pieces, byteLen p < MaxScanTokenSize) :
    scanTokens pieces
      = ((if pieces.getLast? = some [] then pieces.dropLast else pieces)).map dropCR := by
  induction pieces with
  | nil => rfl
  | cons p ps ih =>
    have hp : ¬ MaxScanTokenSize ≤ byteLen p := Nat.not_le.2 (h p (List.mem_cons_self _ _))
    cases ps with
    | nil =>
      by_cases hnil : p = []
      · subst hnil
        rfl
      · simp [scanTokens, hnil, hp]
    | cons q qs =>
      have ih2 := ih (fun x hx => h x (List.mem_cons_of_mem _ hx))
      rw [scanTokens, if_neg hp, ih2]
      · by_cases hl : (q :: qs).getLast? = some []
        · simp [hl, List.getLast?_cons_cons]
        · simp [hl, List.getLast?_cons_cons]
      · simp

theorem Rewritten.ne_nil {line r : List Char} (h : Rewritten line r) : r ≠ [] := by
  cases h with
  | help rest _ hr => rw [hr]; simp [helpHeader_eq]
  | type rest _ hr => rw [hr]; simp [typeHeader_eq]
  | prefixed _ hr => rw [hr]; simp [namespacePrefix]
  | unprefixed hne _ hr => rw [hr]; exact hne

theorem byteLen_replicate_a (n : Nat) : byteLen (List.replicate n 'a') = n := by
  induction n with
  | zero => rfl
  | succ k ih =>
    rw [List.replicate_succ, byteLen, List.map_cons, List.sum_cons]
    have h1 : Char.utf8Size 'a' = 1 := by decide
    rw [h1]
    change 1 + byteLen (List.replicate k 'a') = k + 1
    omega

theorem transformMetrics_replicate_a (n : Nat) (h : MaxScanTokenSize ≤ n) :
    (inputLines (List.replicate n 'a')).filter (fun l => decide (l ≠ [])) = [List.replicate n 'a']
      ∧ transformMetrics (List.replicate n 'a') = some [] := by
  have hpos : 0 < n := Nat.lt_of_lt_of_le (by decide) h
  have hne : List.replicate n 'a' ≠ [] := by
    intro e
    have := congrArg List.length e
    simp at this
    omega
  have hs : Split '\n' (List.replicate n 'a') = [List.replicate n 'a'] :=
    Split_of_not_mem (by simp [List.mem_replicate])
  have hcr : dropCR (List.replicate n 'a') = List.replicate n 'a' := by
    apply dropCR_of_getLast
    intro hl
    have hm := List.mem_of_getLast?_eq_some hl
    simp [List.mem_replicate] at hm
  constructor
  · simp [inputLines, hs, hne, hcr]
  · have hb : MaxScanTokenSize ≤ byteLen (List.replicate n 'a') := by
      rw [byteLen_replicate_a]
      exact h
    simp [transformMetrics, scanLines, hs, scanTokens, hne, hb, transformLoop]

/-! ## `ParseFloat` on runs of digits -/

theorem bitPos_spec (fuel n : Nat) (hf : n ≤ fuel) (hn : n ≠ 0) :
    2 ^ bitPos fuel n ≤ n ∧ n < 2 ^ (bitPos fuel n + 1) := by
  induction fuel generalizing n with
  | zero => omega
  | succ f ih =>
    rw [bitPos]
    by_cases h2 : n < 2
    · rw [if_pos h2]
      have : n = 1 := by omega
      subst this
      simp
    · rw [if_neg h2]
      have hd : n / 2 ≤ f := by omega
      have hd0 : n / 2 ≠ 0 := by omega
      obtain ⟨h3, h4⟩ := ih (n / 2) hd hd0
      constructor
      · rw [Nat.pow_succ]
        omega
      · rw [Nat.pow_succ]
        omega

theorem roundFloat64_nat (n : Nat) (h : n < 2 ^ 53) : roundFloat64 n 1 = (n : Rat) := by
  unfold roundFloat64
  by_cases h0 : n = 0
  · simp [h0]
  · rw [if_neg h0]
    obtain ⟨h1, h2⟩ := bitPos_spec n n (Nat.le_refl n) h0
    have hb1 : bitPos 1 1 = 0 := by decide
    have hk : bitPos n n ≤ 52 := by
      by_contra hc
      have : 2 ^ 53 ≤ 2 ^ bitPos n n := Nat.pow_le_pow_right (by decide) (by omega)
      omega
    have hge : geTwoPow n 1 ((bitPos n n : Int) - (bitPos 1 1 : Int)) = true := by
      rw [hb1]
      simp only [geTwoPow, Int.Nat.cast_ofNat_Int, sub_zero, Int.natCast_nonneg, if_true,
        Int.toNat_ofNat, one_mul, decide_eq_true_eq]
      exact h1
    simp only [hge, if_true]
    rw [hb1]
    have hu : max ((bitPos n n : Int) - ((0 : Nat) : Int)) (-1022) - 52 = (bitPos n n : Int) - 52 := by
      rw [max_eq_left (by omega)]
      simp
    rw [hu]
    by_cases hz : (0 : Int) ≤ (bitPos n n : Int) - 52
    · have hk2 : bitPos n n = 52 := by omega
      simp [hz, hk2, Nat.mod_one]
    · have hj : (-((bitPos n n : Int) - 52)).toNat = 52 - bitPos n n := by omega
      simp only [hz, if_false, hj, Nat.div_one, Nat.mod_one, Nat.mul_zero]
      have hcond : (decide (1 < 0) || (decide (0 = 1) && decide (n * 2 ^ (52 - bitPos n n) % 2 = 1)))
          = false := by simp
      rw [hcond]
      simp only [Bool.false_eq_true, if_false]
      have hne : (2 ^ (52 - bitPos n n) : Nat) ≠ 0 := by positivity
      have := Rat.mkRat_mul_right (n := (n : Int)) (d := 1) hne
      rw [Nat.one_mul] at this
      push_cast at this ⊢
      rw [this]
      simp [Rat.mkRat_one]

theorem not_sign_of_isDigit {c : Char} (h : isDigit c = true) : c ≠ '+' ∧ c ≠ '-' := by
  constructor
  · rintro rfl
    exact absurd h (by decide)
  · rintro rfl
    exact absurd h (by decide)

theorem readFloat_digits (v : List Char) (hv : v ≠ []) (hd : ∀ c ∈ v, isDigit c = true) :
    readFloat v = some (false, digitsToNat v, 0) := by
  cases v with
  | nil => exact absurd rfl hv
  | cons c t =>
    obtain ⟨h1, h2⟩ := not_sign_of_isDigit (hd c (List.mem_cons_self _ _))
    have hs : readSign (c :: t) = (false, c :: t) := by
      simp [readSign, h1, h2]
    have ht : List.takeWhile isDigit (c :: t) = c :: t := List.takeWhile_eq_self_iff.2 hd
    have hdr : List.dropWhile isDigit (c :: t) = [] := List.dropWhile_eq_nil_iff.2 hd
    unfold readFloat
    rw [hs]
    simp only [ht, hdr]
    simp

theorem ParseFloat_digits (v : List Char) (hv : v ≠ []) (hd : ∀ c ∈ v, isDigit c = true)
    (hr : digitsToNat v < 2 ^ 53) : ParseFloat v = .ok (digitsToNat v : Rat) := by
  unfold ParseFloat
  rw [readFloat_digits v hv hd]
  simp only [le_refl, if_true, Int.toNat_zero, pow_zero, mul_one, Bool.false_eq_true, if_false]
  rw [roundFloat64_nat _ hr]
  have : ¬ ((2 ^ 1024 : Nat) : Rat) ≤ (digitsToNat v : Rat) := by
    rw [Nat.cast_le]
    have : (2 : Nat) ^ 53 ≤ 2 ^ 1024 := Nat.pow_le_pow_right (by decide) (by decide)
    omega
  rw [if_neg this]

/-- The model of `ParseFloat` at the edges of float64: exact small values, ties
to the even mantissa above `2 ^ 53`, the nearest float64 to `0.1`, the largest
float64 and the first decimal integer that rounds to infinity, the smallest
subnormal and underflow to zero, and the syntax errors. -/
theorem ParseFloat_examples :
    ParseFloat "2".toList = .ok 2
      ∧ ParseFloat "-.5E+1".toList = .ok (-5)
      ∧ ParseFloat "2.5e-1".toList = .ok (mkRat 1 4)
      ∧ ParseFloat "9007199254740993".toList = .ok 9007199254740992
      ∧ ParseFloat "9007199254740995".toList = .ok 9007199254740996
      ∧ ParseFloat "0.1".toList = .ok (mkRat 3602879701896397 36028797018963968)
      ∧ ParseFloat "179769313486231580793728971405303415079934132710037826936173778980444968292764750946649017977587207096330286416692887910946555547851940402630657488671505820681908902000708383676273854845817711531764475730270069855571366959622842914819860834936475292719074168444365510704342711559699508093042880177904174497791".toList
          = .ok ((2 ^ 1024 - 2 ^ 971 : Nat) : Rat)
      ∧ ParseFloat "179769313486231580793728971405303415079934132710037826936173778980444968292764750946649017977587207096330286416692887910946555547851940402630657488671505820681908902000708383676273854845817711531764475730270069855571366959622842914819860834936475292719074168444365510704342711559699508093042880177904174497792".toList
          = .error .ErrRange
      ∧ ParseFloat "1e400".toList = .error .ErrRange
      ∧ ParseFloat "4.9e-324".toList = .ok (mkRat 1 (2 ^ 1074))
      ∧ ParseFloat "2e-324".toList = .ok 0
      ∧ ParseFloat "1e".toList = .error .ErrSyntax
      ∧ ParseFloat "+-1".toList = .error .ErrSyntax
      ∧ ParseFloat "1.2.3".toList = .error .ErrSyntax
      ∧ ParseFloat ".".toList = .error .ErrSyntax := by
  decide

/-! ## One labelled line through the whole pipeline -/

theorem byteLen_append (a b : List Char) : byteLen (a ++ b) = byteLen a + byteLen b := by
  simp [byteLen]

theorem isNameChar_ne {c : Char} (h : isNameChar c = true) :
    c ≠ '\n' ∧ c ≠ ' ' ∧ c ≠ '#' ∧ c ≠ '{' := by
  refine ⟨?_, ?_, ?_, ?_⟩ <;>
    · rintro rfl
      exact absurd h (by decide)

theorem isValueChar_ne {c : Char} (h : isValueChar c = true) : c ≠ '\n' ∧ c ≠ '\r' := by
  refine ⟨?_, ?_⟩ <;>
    · rintro rfl
      exact absurd h (by decide)

theorem IsValidMetricName_prefixed {n : List Char} (h : IsValidMetricName n = true) :
    IsValidMetricName (namespacePrefix ++ n) = true := by
  have hall := all_isNameChar_of_valid h
  have e : namespacePrefix ++ n = 'p' :: ("etclinic_".toList ++ n) := rfl
  rw [e]
  simp only [IsValidMetricName, Bool.and_eq_true, List.all_eq_true]
  refine ⟨by decide, fun a ha => ?_⟩
  rcases List.mem_append.1 ha with h1 | h1
  · have hp : ∀ b ∈ "etclinic_".toList, isNameChar b = true := by decide
    exact hp a h1
  · exact hall a h1

theorem NewDesc_ok {fqName : List Char} {names : List (List Char)}
    (hn : IsValidMetricName fqName = true) (hk : ∀ k ∈ names, checkLabelName k = true)
    (hd : names.Nodup) :
    NewDesc fqName [] names = { fqName := fqName, help := [], variableLabels := names, err := false } := by
  have h1 : names.all checkLabelName = true := List.all_eq_true.2 hk
  have h2 : names.dedup = names := List.dedup_eq_self.2 hd
  simp [NewDesc, hn, h1, h2]

theorem Collect_one_line (n L v : List Char) (x : Rat)
    (hn : IsValidMetricName n = true) (hL : '}' ∉ L) (hLn : '\n' ∉ L)
    (hv : v ≠ []) (hvc : ∀ c ∈ v, isValueChar c = true) (hx : ParseFloat v = .ok x)
    (hk : ∀ k ∈ (parseLabels L).names, checkLabelName k = true)
    (hd : (parseLabels L).names.Nodup)
    (hu : ∀ val ∈ (parseLabels L).values, ValidString val = true)
    (hlen : byteLen (n ++ '{' :: (L ++ '}' :: ' ' :: v)) + 10 < MaxScanTokenSize) :
    Collect (.ok (n ++ '{' :: (L ++ '}' :: ' ' :: v)))
      = .returned [gauge (namespacePrefix ++ n) (parseLabels L) x] := by
  have hall := all_isNameChar_of_valid hn
  generalize hline : n ++ '{' :: (L ++ '}' :: ' ' :: v) = line at hlen ⊢
  -- the line holds no newline and does not end with a carriage return
  have hnl : '\n' ∉ line := by
    rw [← hline]
    simp only [List.mem_append, List.mem_cons, not_or]
    refine ⟨fun h => (isNameChar_ne (hall _ h)).1 rfl, by decide, hLn, by decide, by decide,
      fun h => (isValueChar_ne (hvc _ h)).1 rfl⟩
  have hlast : line.getLast? ≠ some '\r' := by
    have e : line = (n ++ '{' :: (L ++ ['}', ' '])) ++ v := by rw [← hline]; simp
    rw [e, List.getLast?_append_of_ne_nil _ hv]
    intro h
    exact (isValueChar_ne (hvc _ (List.mem_of_getLast?_eq_some h))).2 rfl
  have hsp : ' ' ∈ line := by
    rw [← hline]
    simp
  obtain ⟨c, cs, hc⟩ : ∃ c cs, n = c :: cs := by
    cases n with
    | nil => simp [IsValidMetricName] at hn
    | cons c cs => exact ⟨c, cs, rfl⟩
  have hcn : isNameChar c = true := hall c (by rw [hc]; exact List.mem_cons_self _ _)
  have hhead : line.head? = some c := by rw [← hline, hc]; rfl
  have hne : line ≠ [] := List.ne_nil_of_mem hsp
  have hh : (HasPrefix line "# HELP ".toList || HasPrefix line "# TYPE ".toList) = false := by
    have hc3 : ('#' == c) = false := by
      simpa using fun e => (isNameChar_ne hcn).2.2.1 e.symm
    rw [← hline, hc, helpHeader_eq, typeHeader_eq]
    simp [HasPrefix, List.isPrefixOf, hc3]
  have hhead2 : line.head? ≠ some ' ' := by
    rw [hhead]
    simpa using (isNameChar_ne hcn).2.1
  -- scanning and rewriting the upstream text
  have hscan : scanLines line = [line] := by
    have hsmall : ¬ MaxScanTokenSize ≤ byteLen line := by omega
    simp [scanLines, Split_of_not_mem hnl, scanTokens, hne, hsmall, dropCR_of_getLast hlast]
  have htr : transformMetrics line = some (namespacePrefix ++ line ++ ['\n']) := by
    simp [transformMetrics, hscan, transformLoop, transformLine_prefixed hh hsp hhead2]
  -- scanning the transformed text
  have hnl2 : '\n' ∉ namespacePrefix ++ line := by
    simp only [List.mem_append, not_or]
    exact ⟨by decide, hnl⟩
  have hlast2 : (namespacePrefix ++ line).getLast? ≠ some '\r' := by
    rw [List.getLast?_append_of_ne_nil _ hne]
    exact hlast
  have hscan2 : scanLines (namespacePrefix ++ line ++ ['\n']) = [namespacePrefix ++ line] := by
    have hb : byteLen namespacePrefix = 10 := by decide
    have hsmall : ¬ MaxScanTokenSize ≤ byteLen (namespacePrefix ++ line) := by
      rw [byteLen_append, hb]
      omega
    have e : namespacePrefix ++ line ++ ['\n'] = (namespacePrefix ++ line) ++ '\n' :: [] := rfl
    rw [scanLines, e, Split_append_sep hnl2]
    simp [Split, scanTokens, hsmall, dropCR_of_getLast hlast2]
  -- the one line matches and its descriptor is valid
  have hhash : HasPrefix (namespacePrefix ++ line) "#".toList = false := by
    rfl
  have hmatch : FindStringSubmatch (namespacePrefix ++ line) = some (namespacePrefix ++ n, L, v) := by
    rw [← hline, ← List.append_assoc]
    exact FindStringSubmatch_of_form (IsValidMetricName_prefixed hn) hL hv hvc
  have hdesc := NewDesc_ok (IsValidMetricName_prefixed hn) hk hd
  have hmk := MustNewConstMetric_ok ⟨namespacePrefix ++ n, [], (parseLabels L).names, false⟩
    ValueType.GaugeValue x rfl (parseLabels_length L) hu
  simp only [Collect, htr, hscan2, collectLoop, hhash, hmatch, hx, hdesc, hmk]
  simp [gauge]

/-! # The claims -/

/-- C1 (as amended): for a line `n{L} v` shorter than the scanner's limit, with
`n` a metric name, `L` without `}` and newline whose decoded keys are valid,
pairwise distinct label names and whose decoded values are valid UTF-8, and `v`
a number token that `ParseFloat` converts without error, `Collect` sends
exactly one sample, a gauge named `petclinic_` followed by `n`, with the labels
`parseLabels(L)` and the value of `v`; that value is the number `v` when `v` is
a run of digits below `2 ^ 53`.  The two examples of the claim hold. -/
theorem Collect_labelled_line (n L v : List Char) (x : Rat)
    (hn : IsValidMetricName n = true) (hL : '}' ∉ L) (hLn : '\n' ∉ L)
    (hv : v ≠ []) (hvc : ∀ c ∈ v, isValueChar c = true) (hx : ParseFloat v = .ok x)
    (hk : ∀ k ∈ (parseLabels L).names, checkLabelName k = true)
    (hd : (parseLabels L).names.Nodup)
    (hu : ∀ val ∈ (parseLabels L).values, ValidString val = true)
    (hlen : byteLen (n ++ '{' :: (L ++ '}' :: ' ' :: v)) + 10 < MaxScanTokenSize) :
    Collect (.ok (n ++ '{' :: (L ++ '}' :: ' ' :: v)))
        = .returned [gauge (namespacePrefix ++ n) (parseLabels L) x]
      ∧ ((∀ c ∈ v, isDigit c = true) → digitsToNat v < 2 ^ 53 → x = (digitsToNat v : Rat))
      ∧ Collect (.ok "foo\x7ba=\"1\"\x7d 2".toList)
        = .returned [gauge "petclinic_foo".toList { names := ["a".toList], values := ["1".toList] } 2]
      ∧ Collect (.ok "# TYPE foo counter\nfoo\x7bcode=\"200\"\x7d 5\nfoo\x7bcode=\"500\"\x7d 1\n".toList)
        = .returned
            [gauge "petclinic_foo".toList { names := ["code".toList], values := ["200".toList] } 5,
             gauge "petclinic_foo".toList { names := ["code".toList], values := ["500".toList] } 1] := by
  refine ⟨Collect_one_line n L v x hn hL hLn hv hvc hx hk hd hu hlen, ?_, by decide, by decide⟩
  intro hdig hr
  have := ParseFloat_digits v hv hdig hr
  rw [hx] at this
  simpa using this

/-- C1, witness: the line `foo{a="1"} 2`. -/
theorem Collect_labelled_line_witness :
    Collect (.ok ("foo".toList ++ '{' :: ("a=\"1\"".toList ++ '}' :: ' ' :: "2".toList)))
      = .returned [gauge (namespacePrefix ++ "foo".toList) (parseLabels "a=\"1\"".toList) 2] :=
  (Collect_labelled_line "foo".toList "a=\"1\"".toList "2".toList 2
    (by decide) (by decide) (by decide) (by decide) (by decide) (by decide)
    (by decide) (by decide) (by decide) (by decide)).1

/-- C1, counterexample: in `foo{a="1"} 1000...0`, the value a one followed by
309 zeros, the value is a decimal number token beyond the float64 range;
`ParseFloat` returns `ErrRange` and `Collect` sends no sample for the line.
In `foo{a="1",a="2"} 2` the label string has no `}` and no line break and
`Collect` panics before sending a sample. -/
theorem Collect_value_out_of_range :
    (∀ c ∈ '1' :: List.replicate 309 '0', isDigit c = true)
      ∧ ParseFloat ('1' :: List.replicate 309 '0') = .error .ErrRange
      ∧ Collect (.ok ("foo\x7ba=\"1\"\x7d ".toList ++ '1' :: List.replicate 309 '0')) = .returned []
      ∧ Collect (.ok "foo\x7ba=\"1\",a=\"2\"\x7d 2".toList) = .panicked [] := by
  decide

/-- C2: a line without a brace-delimited label block followed by a space and a
value is rewritten to a line that does not match `metricRegex`, and `Collect`
sends no sample for it. -/
theorem no_label_block_no_sample (line : List Char) (h : ¬ hasLabelBlock line) :
    (∀ r, transformLine line = some (r ++ ['\n']) → FindStringSubmatch r = none)
      ∧ Collect (.ok line) = .returned [] := by
  constructor
  · intro r hr
    rcases transformLine_cases line with ⟨-, h0⟩ | ⟨r', hr', hrel⟩
    · rw [h0] at hr
      simp at hr
    · rw [hr'] at hr
      simp only [Option.some.injEq, List.append_cancel_right_eq] at hr
      subst hr
      cases hrel with
      | help rest _ hr2 => exact no_match_of_not_nameStart (c := '#') (by rw [hr2]; rfl) (by decide)
      | type rest _ hr2 => exact no_match_of_not_nameStart (c := '#') (by rw [hr2]; rfl) (by decide)
      | prefixed _ hr2 =>
        apply no_match_of_no_block
        rw [hr2]
        exact fun hb => h (hasLabelBlock_strip hb)
      | unprefixed _ hsp hr2 =>
        rw [hr2]
        exact no_match_of_no_block h
  · obtain ⟨out, ho⟩ := Option.isSome_iff_exists.1 (transformLoop_isSome (scanLines line) [])
    have ho2 : transformMetrics line = some out := ho
    simp only [Collect, ho2]
    apply collectLoop_no_match
    intro m hm
    rcases scanned_transformed ho2 hm with rfl | ⟨t, r, ht, hrel, rfl⟩
    · exact Or.inr rfl
    · have hnb := not_hasLabelBlock_of_mem_scanLines h ht
      cases hrel with
      | help rest _ hr2 =>
        left
        rw [hr2, List.append_assoc]
        exact hasPrefix_hash_header "# HELP ".toList rfl (by decide)
      | type rest _ hr2 =>
        left
        rw [hr2, List.append_assoc]
        exact hasPrefix_hash_header "# TYPE ".toList rfl (by decide)
      | prefixed _ hr2 =>
        right
        apply no_match_of_no_block
        rw [hr2]
        exact fun hb => hnb (hasLabelBlock_strip (hasLabelBlock_mono (dropCR_isPrefix _) hb))
      | unprefixed _ hsp hr2 =>
        right
        rw [hr2]
        exact no_match_unprefixed hsp

/-- C2, witness: the line `foo 2`. -/
theorem no_label_block_no_sample_witness :
    (∀ r, transformLine "foo 2".toList = some (r ++ ['\n']) → FindStringSubmatch r = none)
      ∧ Collect (.ok "foo 2".toList) = .returned [] :=
  no_label_block_no_sample "foo 2".toList (by
    rintro ⟨a, b, v, c, e, -⟩
    have : '{' ∈ "foo 2".toList := by
      rw [e]
      simp
    exact absurd this (by decide))

/-- C3 (as amended): a non-empty line without a space character is written
unchanged, without the namespace prefix. -/
theorem transformLine_no_space (line : List Char) (hne : line ≠ []) (hsp : ' ' ∉ line) :
    transformLine line = some (line ++ ['\n']) := by
  have hh : (HasPrefix line "# HELP ".toList || HasPrefix line "# TYPE ".toList) = false := by
    cases h : (HasPrefix line "# HELP ".toList || HasPrefix line "# TYPE ".toList)
    · rfl
    · exact absurd (space_mem_of_header h) hsp
  rw [transformLine_of_not_header hh hne, Index_of_not_mem hsp]
  simp

/-- C3, witness: the line `foo`. -/
theorem transformLine_no_space_witness :
    transformLine "foo".toList = some ("foo".toList ++ ['\n']) :=
  transformLine_no_space "foo".toList (by decide) (by decide)

/-- C3, counterexample: `foo` is non-empty and has no space; it is written as
`foo`, not as `petclinic_foo`. -/
theorem transformMetrics_no_space_unprefixed :
    "foo".toList ≠ [] ∧ ' ' ∉ "foo".toList
      ∧ transformMetrics "foo".toList = some "foo\n".toList
      ∧ transformMetrics "foo".toList ≠ some (namespacePrefix ++ "foo".toList ++ ['\n']) := by
  decide

/-- C4 (as amended): for a non-empty line that is no HELP or TYPE line and has
a space, when the first character is not a space the output is the prefix, the
text before the first space and the rest from the first space on, which is
`petclinic_` followed by the line; when the line begins with a space it is
written unchanged, without the prefix. -/
theorem transformLine_with_space (line : List Char)
    (hh : (HasPrefix line "# HELP ".toList || HasPrefix line "# TYPE ".toList) = false)
    (hsp : ' ' ∈ line) :
    (line.head? ≠ some ' ' →
        transformLine line = some (namespacePrefix ++ line.takeWhile (fun c => c ≠ ' ')
          ++ line.dropWhile (fun c => c ≠ ' ') ++ ['\n'])
        ∧ transformLine line = some (namespacePrefix ++ line ++ ['\n']))
      ∧ (line.head? = some ' ' → transformLine line = some (line ++ ['\n'])) := by
  have hne : line ≠ [] := List.ne_nil_of_mem hsp
  rw [transformLine_of_not_header hh hne]
  cases line with
  | nil => exact absurd rfl hne
  | cons c cs =>
    constructor
    · intro hc
      have hc2 : c ≠ ' ' := by simpa using hc
      have hm : ' ' ∈ cs := by
        rcases List.mem_cons.1 hsp with e | e
        · exact absurd e.symm hc2
        · exact e
      rw [if_pos (Index_pos hc2 hm)]
      simp only [List.append_assoc, List.take_append_drop, List.takeWhile_append_dropWhile,
        and_self]
    · intro hc
      have hc2 : c = ' ' := by simpa using hc
      subst hc2
      rw [Index_cons_self]
      simp

/-- C4, witness: the lines `foo 2` and ` foo 2`. -/
theorem transformLine_with_space_witness :
    transformLine "foo 2".toList = some (namespacePrefix ++ "foo 2".toList ++ ['\n'])
      ∧ transformLine " foo 2".toList = some (" foo 2".toList ++ ['\n']) :=
  ⟨((transformLine_with_space "foo 2".toList (by decide) (by decide)).1 (by decide)).2,
    (transformLine_with_space " foo 2".toList (by decide) (by decide)).2 (by decide)⟩

/-- C4, counterexample: ` foo 2` is non-empty, is no HELP or TYPE line and has a
space, as its first character; it is written unchanged, not with the prefix. -/
theorem transformMetrics_leading_space_unprefixed :
    (HasPrefix " foo 2".toList "# HELP ".toList || HasPrefix " foo 2".toList "# TYPE ".toList) = false
      ∧ ' ' ∈ " foo 2".toList
      ∧ transformMetrics " foo 2".toList = some " foo 2\n".toList
      ∧ transformMetrics " foo 2".toList ≠ some (namespacePrefix ++ " foo 2".toList ++ ['\n']) := by
  decide

/-- C5: a line that begins with `# HELP ` or `# TYPE ` is written back as that
header, then `petclinic_`, then the rest of the line unchanged; the access
`lineParts[2]` is in range for such a line, also when nothing follows the
header, so that `transformMetrics` never panics. -/
theorem transformLine_help_type (rest : List Char) :
    transformLine ("# HELP ".toList ++ rest)
        = some ("# HELP ".toList ++ namespacePrefix ++ rest ++ ['\n'])
      ∧ transformLine ("# TYPE ".toList ++ rest)
        = some ("# TYPE ".toList ++ namespacePrefix ++ rest ++ ['\n'])
      ∧ transformLine "# HELP ".toList = some "# HELP petclinic_\n".toList
      ∧ transformMetrics "# HELP foo some text".toList
        = some "# HELP petclinic_foo some text\n".toList
      ∧ transformMetrics "# TYPE foo gauge".toList = some "# TYPE petclinic_foo gauge\n".toList
      ∧ ∀ metrics, (transformMetrics metrics).isSome = true := by
  exact ⟨transformLine_help rest, transformLine_type rest, by decide, by decide, by decide,
    fun m => transformLoop_isSome _ _⟩

/-- C6 (as amended): the value of each decoded pair is the text after the first
`=` of its segment with all the leading and all the trailing double-quote
characters removed: what `Trim` returns neither begins nor ends with a quote,
and differs from its argument by quotes only.  The segment `a=""x""` decodes to
the value `x`. -/
theorem parseLabels_values_trimmed (labelsStr : List Char) :
    (parseLabels labelsStr).values
        = ((Split ',' labelsStr).filter (fun seg => decide ('=' ∈ seg))).map
            (fun seg => Trim '"' ((seg.dropWhile (fun x => x ≠ '=')).tail))
      ∧ (∀ v ∈ (parseLabels labelsStr).values, v.head? ≠ some '"' ∧ v.getLast? ≠ some '"')
      ∧ (∀ t : List Char, ∃ i j, t = List.replicate i '"' ++ Trim '"' t ++ List.replicate j '"')
      ∧ parseLabels "a=\"\"x\"\"".toList = { names := ["a".toList], values := ["x".toList] } := by
  refine ⟨?_, ?_, ?_, by decide⟩
  · rw [parseLabels_eq]
    rfl
  · intro v hv
    rw [parseLabels_eq] at hv
    obtain ⟨seg, -, rfl⟩ := List.mem_map.1 hv
    obtain ⟨i, j, -, h1, h2⟩ := Trim_spec '"' (afterEq seg)
    exact ⟨h1, h2⟩
  · intro t
    obtain ⟨i, j, h, -⟩ := Trim_spec '"' t
    exact ⟨i, j, h⟩

/-- C6, counterexample: the segment `a=""x""` decodes to the value `x`, with
both quotes of each end removed, not to `"x"`. -/
theorem parseLabels_trims_all_quotes :
    (parseLabels "a=\"\"x\"\"".toList).values = ["x".toList]
      ∧ (parseLabels "a=\"\"x\"\"".toList).values ≠ ["\"x\"".toList] := by
  decide

/-- C7: `parseLabels` returns one key and one value per comma-separated segment
that contains `=`, in the order of the segments, the key being the text before
the first `=`; segments without `=` give nothing and equal keys are all kept. -/
theorem parseLabels_pairs (labelsStr : List Char) :
    (parseLabels labelsStr).names
        = ((Split ',' labelsStr).filter (fun seg => decide ('=' ∈ seg))).map
            (fun seg => seg.takeWhile (fun x => x ≠ '='))
      ∧ (parseLabels labelsStr).values
        = ((Split ',' labelsStr).filter (fun seg => decide ('=' ∈ seg))).map
            (fun seg => Trim '"' ((seg.dropWhile (fun x => x ≠ '=')).tail))
      ∧ (parseLabels labelsStr).values.length = (parseLabels labelsStr).names.length
      ∧ parseLabels "a=\"1\",a=\"2\"".toList
        = { names := ["a".toList, "a".toList], values := ["1".toList, "2".toList] }
      ∧ parseLabels "a=\"1\",b,c=\"3\"".toList
        = { names := ["a".toList, "c".toList], values := ["1".toList, "3".toList] } := by
  refine ⟨?_, ?_, parseLabels_length labelsStr, by decide, by decide⟩
  · rw [parseLabels_eq]
    rfl
  · rw [parseLabels_eq]
    rfl

/-- C8, the failing inputs: a first line whose label string decodes to the key
`a` twice, written twice or met again inside a quoted value with a comma; the
descriptor carries an error and `MustNewConstMetric` panics, so `Collect` does
not return and the sample of the second line, sent when that line comes alone,
is never sent. -/
theorem Collect_duplicate_key_panics :
    Collect (.ok "foo\x7ba=\"1\",a=\"2\"\x7d 2\nbar\x7bb=\"1\"\x7d 3\n".toList) = .panicked []
      ∧ (parseLabels "a=\"1\",b=\"x,a=2\"".toList).names = ["a".toList, "b".toList, "a".toList]
      ∧ Collect (.ok "foo\x7ba=\"1\",b=\"x,a=2\"\x7d 2\nbar\x7bb=\"1\"\x7d 3\n".toList) = .panicked []
      ∧ Collect (.ok "bar\x7bb=\"1\"\x7d 3\n".toList)
        = .returned [gauge "petclinic_bar".toList { names := ["b".toList], values := ["1".toList] } 3] := by
  decide

/-- C9 (as amended): when every stretch of the input between two newlines, a
trailing carriage return counted, is shorter than the scanner's limit of 65536
bytes, the output is made of one newline-terminated line per non-empty input
line, in the same order, each written by the loop body for that line, an input
line being a stretch without one trailing carriage return; blank input lines
give nothing.  No output line is empty as written or holds a newline.  Every
line `Collect` scans in the output is an output line without one trailing
carriage return, so it comes from a non-empty input line; it can be read as
empty (an output line that is a lone carriage return), and then matches
nothing. -/
theorem transformMetrics_lines (metrics : List Char)
    (hsmall : ∀ piece ∈ Split '\n' metrics, byteLen piece < MaxScanTokenSize) :
    ∃ outs, transformMetrics metrics = some (unlines outs)
      ∧ List.Forall₂ (fun line r => transformLine line = some (r ++ ['\n']))
          ((inputLines metrics).filter (fun l => decide (l ≠ []))) outs
      ∧ (∀ r ∈ outs, r ≠ [] ∧ '\n' ∉ r)
      ∧ Split '\n' (unlines outs) = outs ++ [[]]
      ∧ (∀ l ∈ scanLines (unlines outs), ∃ r ∈ outs, l = dropCR r)
      ∧ FindStringSubmatch [] = none := by
  obtain ⟨outs, h1, h2⟩ := transformMetrics_spec metrics
  have hnl : ∀ o ∈ outs, '\n' ∉ o := by
    intro o ho
    obtain ⟨t, ht2, -, hrel⟩ := exists_of_forall₂_right h2 ho
    exact hrel.not_mem_newline (not_mem_newline_of_mem_scanLines (List.mem_filter.1 ht2).1)
  refine ⟨outs, h1, ?_, ?_, Split_unlines hnl, ?_, rfl⟩
  · rw [inputLines, ← scanTokens_of_small _ hsmall]
    exact h2.imp (fun _ _ h => h.1)
  · intro r hr
    obtain ⟨t, -, -, hrel⟩ := exists_of_forall₂_right h2 hr
    exact ⟨hrel.ne_nil, hnl r hr⟩
  · intro l hl
    rw [scanLines, Split_unlines hnl] at hl
    exact mem_scanTokens_append_nil hl

/-- C9, witness: a text with a blank line, a line ended by a carriage return
and a last line without a newline. -/
theorem transformMetrics_lines_witness :
    ∃ outs, transformMetrics "a 1\n\nb\r\nc 2".toList = some (unlines outs)
      ∧ List.Forall₂ (fun line r => transformLine line = some (r ++ ['\n']))
          ((inputLines "a 1\n\nb\r\nc 2".toList).filter (fun l => decide (l ≠ []))) outs
      ∧ (∀ r ∈ outs, r ≠ [] ∧ '\n' ∉ r)
      ∧ Split '\n' (unlines outs) = outs ++ [[]]
      ∧ (∀ l ∈ scanLines (unlines outs), ∃ r ∈ outs, l = dropCR r)
      ∧ FindStringSubmatch [] = none :=
  transformMetrics_lines "a 1\n\nb\r\nc 2".toList (by decide)

/-- C9, counterexample: a text that is one line of 65536 letters `a`, a
non-empty input line, gives the empty output: the scanner stops at a line that
does not fit its buffer.  And the text of two carriage returns and a newline
gives an output of one carriage return and a newline, whose one line the
scanner of `Collect` reads as the empty line. -/
theorem transformMetrics_long_line_lost :
    (inputLines (List.replicate 65536 'a')).filter (fun l => decide (l ≠ []))
        = [List.replicate 65536 'a']
      ∧ transformMetrics (List.replicate 65536 'a') = some []
      ∧ transformMetrics "\r\r\n".toList = some "\r\n".toList
      ∧ scanLines "\r\n".toList = [[]] :=
  ⟨(transformMetrics_replicate_a 65536 (by decide)).1,
    (transformMetrics_replicate_a 65536 (by decide)).2, by decide, by decide⟩

/-- C10: every sample `Collect` sends has a name that begins with `petclinic_`;
a line written without the prefix, which has no space or begins with one, does
not match `metricRegex`, with or without a trailing carriage return. -/
theorem Collect_names_prefixed (fetched : Except String (List Char)) (m : Metric)
    (hm : m ∈ (Collect fetched).sent) :
    namespacePrefix <+: m.desc.fqName
      ∧ ∀ line : List Char, (' ' ∉ line ∨ line.head? = some ' ') →
          FindStringSubmatch line = none ∧ FindStringSubmatch (dropCR line) = none := by
  constructor
  · cases fetched with
    | error e => simp [Collect, Outcome.sent] at hm
    | ok metrics =>
      obtain ⟨out, ho⟩ := Option.isSome_iff_exists.1 (transformLoop_isSome (scanLines metrics) [])
      have ho2 : transformMetrics metrics = some out := ho
      simp only [Collect, ho2] at hm
      refine collectLoop_sent_name (fun n => namespacePrefix <+: n) _ [] (by simp) ?_ m hm
      intro line hl hp n l v hmatch
      rcases scanned_transformed ho2 hl with rfl | ⟨t, r, ht, hrel, rfl⟩
      · simp [FindStringSubmatch_nil] at hmatch
      · cases hrel with
        | help rest _ hr2 =>
          rw [hr2, List.append_assoc,
            hasPrefix_hash_header "# HELP ".toList rfl (by decide)] at hp
          simp at hp
        | type rest _ hr2 =>
          rw [hr2, List.append_assoc,
            hasPrefix_hash_header "# TYPE ".toList rfl (by decide)] at hp
          simp at hp
        | prefixed hne hr2 =>
          rw [hr2] at hmatch
          exact prefix_name_of_match hne hmatch
        | unprefixed _ hsp hr2 =>
          rw [hr2, no_match_unprefixed hsp] at hmatch
          simp at hmatch
  · intro line hsp
    refine ⟨?_, no_match_unprefixed hsp⟩
    rcases hsp with h | h
    · exact no_match_of_no_space h
    · exact no_match_of_not_nameStart h (by decide)

/-- C10, witness: the sample sent for the upstream text `foo{a="1"} 2`. -/
theorem Collect_names_prefixed_witness :
    namespacePrefix <+:
      (gauge "petclinic_foo".toList { names := ["a".toList], values := ["1".toList] } 2).desc.fqName :=
  (Collect_names_prefixed (.ok "foo\x7ba=\"1\"\x7d 2".toList)
    (gauge "petclinic_foo".toList { names := ["a".toList], values := ["1".toList] } 2)
    (by decide)).1

end PetClinic
